import Mathlib

/-!
Verification development for `libarchive/archive_string.c`: a shallow
embedding of the growable string buffer, the UTF-8/CESU-8 codec, the
best-effort charset conversion path and the multi-representation string
layer, together with theorems settling the specification's claims.

Modelling conventions:
* C `size_t` arithmetic is `Nat` reduced `% 2^64` exactly where the C code
  can wrap (the buffer-growth computation); elsewhere sizes carry
  well-formedness bounds in the theorems.
* Bytes are `Nat` values; theorems that need it assume every byte `< 256`.
  `b / 64 % 4 = 2` translates `(b & 0xC0) == 0x80`, `b % 32` translates
  `b & 0x1f`, and so on (equal on all naturals).
* `realloc` is modelled as always succeeding: the reference design aborts
  the process on allocation failure, which is outside the scope of the
  claims.  The only modelled failure of `archive_string_ensure` is the
  growth-computation wrap, exactly as in the source.
* The embedded build configuration is the portable one: non-Windows,
  no iconv (`HAVE_ICONV` undefined), non-Apple.  Host locale primitives
  (`mbrtowc`, `wctomb`, the current-locale charset) are external
  collaborators per the specification; they are modelled as the C/POSIX
  locale, where precisely the bytes `0x00..0x7F` are valid characters.
-/

/-- One `"C" size_t` modulus: `2^64`. -/
def sizeTMod : Nat := 18446744073709551616

/-- Model of `struct archive_string` (and `archive_wstring`, which is
identical up to the element type): `data` is the list of `length` valid
elements, `buffer_length` the capacity, `alloc` whether `s != NULL`.
The always-reserved trailing terminator is implicit. -/
structure ArchiveString where
  data : List Nat
  buffer_length : Nat
  alloc : Bool
  deriving Repr, DecidableEq

/-- `archive_string_init` / a zeroed `archive_string`: NULL buffer. -/
def archive_string_init : ArchiveString := ⟨[], 0, false⟩

/-- `archive_string_free`: length 0, capacity 0, data released (NULL). -/
def archive_string_free (_as : ArchiveString) : ArchiveString := ⟨[], 0, false⟩

/-- `archive_string_empty` (header macro): set length to 0, keep capacity. -/
def archive_string_empty (as : ArchiveString) : ArchiveString :=
  { as with data := [] }

/-- `archive_string_ensure` from the source: no-op when the buffer exists
and is big enough; otherwise grow (32 / doubling / +25% with a wrap check
that frees the buffer and fails), raising to the request when the grown
size is still short.  Returns the updated string and `true`, or the freed
string and `false` (the C function returns NULL then). -/
def archive_string_ensure (as : ArchiveString) (s : Nat) : ArchiveString × Bool :=
  if as.alloc ∧ s ≤ as.buffer_length then (as, true)
  else
    let new_length : Nat :=
      if as.buffer_length < 32 then 32
      else if as.buffer_length < 8192 then
        (as.buffer_length + as.buffer_length) % sizeTMod
      else (as.buffer_length + as.buffer_length / 4) % sizeTMod
    if 8192 ≤ as.buffer_length ∧ new_length < as.buffer_length then
      (archive_string_free as, false)
    else
      let new_length := if new_length < s then s else new_length
      ({ as with buffer_length := new_length, alloc := true }, true)

/-- `archive_string_append`: ensure room for `length + s + 1`, copy `s`
elements read from memory `p` starting at offset `off`, advance length.
On ensure failure the C code aborts the process; the model returns the
failed state with `false`. -/
def archive_string_append (as : ArchiveString) (p : Nat → Nat) (off s : Nat) :
    ArchiveString × Bool :=
  let r := archive_string_ensure as ((as.data.length + s + 1) % sizeTMod)
  if r.2 then
    ({ r.1 with data := r.1.data ++ (List.range s).map (fun i => p (off + i)) }, true)
  else (r.1, false)

/-- The scan shared by `archive_strncat` and `la_strnlen`: like `strlen`
except it never examines positions at or beyond `n`.  `i` is the cursor
and `fuel` the number of positions still below `n` (so the loop guard
`i < n` becomes `fuel > 0`; structural recursion keeps the definition
kernel-reducible). -/
def la_strnlen_from (p : Nat → Nat) (fuel i : Nat) : Nat :=
  match fuel with
  | 0 => i
  | fuel + 1 => if p i ≠ 0 then la_strnlen_from p fuel (i + 1) else i

/-- `la_strnlen(p, n)` over a memory `p`. -/
def la_strnlen (p : Nat → Nat) (n : Nat) : Nat := la_strnlen_from p n 0

/-- `archive_strncat`: scan for the first NUL among the first `n` elements,
append exactly the elements before it. -/
def archive_strncat (as : ArchiveString) (p : Nat → Nat) (n : Nat) :
    ArchiveString × Bool :=
  archive_string_append as p 0 (la_strnlen p n)

/-- `archive_strcat`: `archive_strncat` with the fixed 16M bound. -/
def archive_strcat (as : ArchiveString) (p : Nat → Nat) : ArchiveString × Bool :=
  archive_strncat as p 0x1000000

/-- `archive_wstrncat`: the wide-character variant, same algorithm over
wide elements. -/
def archive_wstrncat (as : ArchiveString) (p : Nat → Nat) (n : Nat) :
    ArchiveString × Bool :=
  archive_string_append as p 0 (la_strnlen p n)

/-- `archive_wstrcat`: `archive_wstrncat` with the fixed 16M bound. -/
def archive_wstrcat (as : ArchiveString) (p : Nat → Nat) : ArchiveString × Bool :=
  archive_wstrncat as p 0x1000000

/-- View a byte list as a C memory region: positions past the list read 0,
which in particular provides the NUL terminator of a C string literal. -/
def memOf (l : List Nat) : Nat → Nat := fun i => l.getD i 0

/-- The 256-entry lead-byte sequence-length table `utf8_count` from
`_utf8_to_unicode`, written as its range structure: 1 for `00..7F`,
0 for `80..BF` and `C0..C1`, 2 for `C2..DF`, 3 for `E0..EF`, 4 for
`F0..F4`, 0 for `F5..FF`. -/
def utf8_count (ch : Nat) : Nat :=
  if ch < 0x80 then 1
  else if ch < 0xC2 then 0
  else if ch < 0xE0 then 2
  else if ch < 0xF0 then 3
  else if ch < 0xF5 then 4
  else 0

/-- `(b & 0xc0) == 0x80`: `b` is a UTF-8 continuation byte. -/
def isCont (b : Nat) : Bool := b / 64 % 4 == 2

/-- The continuation-byte scan the source performs before
`invalid_sequence`: the first index `i` in `[start, limit)` whose byte is
not a continuation byte, or `limit` when all are. -/
def contScan (s : List Nat) (limit i : Nat) : Nat :=
  go (limit - i) i
where
  go : Nat → Nat → Nat
    | 0, _ => limit
    | fuel + 1, i => if isCont (s.getD i 0) then go fuel (i + 1) else i

/-- The byte count the `default:` arm of `_utf8_to_unicode`'s switch
assigns to an invalid lead byte (2 for C0/C1, 4 for F5..F7, 5 for F8..FB,
6 for FC/FD, 1 otherwise). -/
def utf8_default_cnt (ch : Nat) : Nat :=
  if ch = 0xC0 ∨ ch = 0xC1 then 2
  else if 0xF5 ≤ ch ∧ ch ≤ 0xF7 then 4
  else if 0xF8 ≤ ch ∧ ch ≤ 0xFB then 5
  else if ch = 0xFC ∨ ch = 0xFD then 6
  else 1

/-- `_utf8_to_unicode`: the lenient one-sequence UTF-8 decoder.  Returns
the C `int` result and the value stored through `pwc` (`none` when the C
code returns without writing `*pwc`, i.e. on the 0 returns). -/
def utf8_to_unicode_lenient (s : List Nat) (n : Nat) : Int × Option Nat :=
  if n = 0 then (0, none)
  else
    let ch := s.getD 0 0
    if ch = 0 then (0, none)
    else
      let cnt := utf8_count ch
      if n < cnt then
        (-(contScan s n 1 : Int), some 0xFFFD)
      else
        -- the C switch on cnt, as a chain of tests
        if cnt = 1 then (1, some (ch % 128))
        else if cnt = 2 then
          if ¬ isCont (s.getD 1 0) then (-1, some 0xFFFD)
          else (2, some ((ch % 32) * 64 + s.getD 1 0 % 64))
        else if cnt = 3 then
          -- wc below is the C local wc, written out at each use
          if ¬ isCont (s.getD 1 0) then (-1, some 0xFFFD)
          else if ¬ isCont (s.getD 2 0) then (-2, some 0xFFFD)
          else if (ch % 16) * 4096 + (s.getD 1 0 % 64) * 64 +
              s.getD 2 0 % 64 < 0x800 then (-3, some 0xFFFD)
          else if (ch % 16) * 4096 + (s.getD 1 0 % 64) * 64 +
              s.getD 2 0 % 64 > 0x10FFFF then (-3, some 0xFFFD)
          else (3, some ((ch % 16) * 4096 + (s.getD 1 0 % 64) * 64 +
            s.getD 2 0 % 64))
        else if cnt = 4 then
          if ¬ isCont (s.getD 1 0) then (-1, some 0xFFFD)
          else if ¬ isCont (s.getD 2 0) then (-2, some 0xFFFD)
          else if ¬ isCont (s.getD 3 0) then (-3, some 0xFFFD)
          else if (ch % 8) * 262144 + (s.getD 1 0 % 64) * 4096 +
              (s.getD 2 0 % 64) * 64 + s.getD 3 0 % 64 < 0x10000 then
            (-4, some 0xFFFD)
          else if (ch % 8) * 262144 + (s.getD 1 0 % 64) * 4096 +
              (s.getD 2 0 % 64) * 64 + s.getD 3 0 % 64 > 0x10FFFF then
            (-4, some 0xFFFD)
          else (4, some ((ch % 8) * 262144 + (s.getD 1 0 % 64) * 4096 +
            (s.getD 2 0 % 64) * 64 + s.getD 3 0 % 64))
        else
          -- the `default:` arm of the switch, clamping its count to n
          (-(contScan s
            (if n < utf8_default_cnt ch then n else utf8_default_cnt ch)
            1 : Int), some 0xFFFD)

/-- `IS_HIGH_SURROGATE_LA`. -/
def isHighSurrogate (uc : Nat) : Bool := 0xD800 ≤ uc && uc ≤ 0xDBFF

/-- `IS_LOW_SURROGATE_LA`. -/
def isLowSurrogate (uc : Nat) : Bool := 0xDC00 ≤ uc && uc ≤ 0xDFFF

/-- `IS_SURROGATE_PAIR_LA`. -/
def isSurrogate (uc : Nat) : Bool := 0xD800 ≤ uc && uc ≤ 0xDFFF

/-- `utf8_to_unicode` (the strict wrapper): rejects 3-byte surrogates with
`-3`.  In this source the rejection branch returns before the local `wc`
is stored through `pwc`, so the caller's variable keeps its old value:
the model returns `none` in that case. -/
def utf8_to_unicode_strict (s : List Nat) (n : Nat) : Int × Option Nat :=
  let r := utf8_to_unicode_lenient s n
  if r.1 = 3 ∧ isSurrogate (r.2.getD 0) then (-3, none) else r

/-- `combine_surrogate_pair`. -/
def combine_surrogate_pair (uc uc2 : Nat) : Nat :=
  (uc - 0xD800) * 0x400 + (uc2 - 0xDC00) + 0x10000

/-- `cesu8_to_unicode`: CESU-8-aware decode.  Note the `invalid_sequence`
label of this source returns the current `cnt` unnegated (the comment
above the C function promises a negative return there). -/
def cesu8_to_unicode (s : List Nat) (n : Nat) : Int × Option Nat :=
  let r := utf8_to_unicode_lenient s n
  if r.1 = 3 ∧ isHighSurrogate (r.2.getD 0) then
    if n - 3 < 3 then (3, some 0xFFFD)
    else
      let r2 := utf8_to_unicode_lenient (s.drop 3) (n - 3)
      if r2.1 ≠ 3 ∨ ¬ isLowSurrogate (r2.2.getD 0) then (r2.1, some 0xFFFD)
      else (6, some (combine_surrogate_pair (r.2.getD 0) (r2.2.getD 0)))
  else if r.1 = 3 ∧ isLowSurrogate (r.2.getD 0) then (3, some 0xFFFD)
  else r

/-- `unicode_to_utf8`: encode one code point as 1..4 UTF-8 bytes;
values above U+10FFFF are encoded as U+FFFD's three bytes. -/
def unicode_to_utf8 (uc : Nat) : List Nat :=
  if uc ≤ 0x7F then [uc]
  else if uc ≤ 0x7FF then [0xC0 + uc / 64 % 32, 0x80 + uc % 64]
  else if uc ≤ 0xFFFF then
    [0xE0 + uc / 4096 % 16, 0x80 + uc / 64 % 64, 0x80 + uc % 64]
  else if uc ≤ 0x10FFFF then
    [0xF0 + uc / 262144 % 8, 0x80 + uc / 4096 % 64, 0x80 + uc / 64 % 64,
     0x80 + uc % 64]
  else [0xEF, 0xBF, 0xBD]

/-- Modelled from the spec: the sorted `(base, combiner) -> composed`
canonical-composition table `u_composition_table` lives in
`archive_string_composition.h`, which is not part of the provided source.
This is a small faithful fragment of the Unicode canonical composition
data (sorted by code-point pair), enough to exercise the algorithm. -/
def u_composition_table : List (Nat × Nat × Nat) :=
  [(0x41, 0x300, 0xC0), (0x41, 0x301, 0xC1), (0x45, 0x301, 0xC9),
   (0x4F, 0x302, 0xD4), (0x61, 0x300, 0xE0), (0x61, 0x301, 0xE1),
   (0x65, 0x301, 0xE9), (0x6F, 0x302, 0xF4), (0x75, 0x308, 0xFC),
   (0xE9, 0x302, 0), (0x1EA5, 0, 0)].filter (fun e => e.2.2 ≠ 0)

/-- `get_nfc`: binary search of the sorted composition table for the pair,
0 when absent.  On a sorted table the binary search is extensionally the
lookup of the unique matching entry, which is how it is modelled. -/
def get_nfc (uc uc2 : Nat) : Nat :=
  match u_composition_table.find? (fun e => e.1 == uc && e.2.1 == uc2) with
  | some e => e.2.2
  | none => 0

/-- Modelled from the spec: the `CCC` canonical-combining-class lookup of
`archive_string_composition.h` (not in the provided source), as a fragment
of the Unicode combining-class data: 230 for the above-attached combining
diacriticals, 220 for the below-attached ones, 0 elsewhere. -/
def CCC (uc : Nat) : Nat :=
  if 0x300 ≤ uc ∧ uc ≤ 0x315 then 230
  else if 0x316 ≤ uc ∧ uc ≤ 0x319 then 220
  else if 0x31A ≤ uc ∧ uc ≤ 0x320 then 232
  else if uc = 0x327 ∨ uc = 0x328 then 202
  else 0

/-- Modelled from the spec: `IS_DECOMPOSABLE_BLOCK` of
`archive_string_composition.h` (not in the provided source): whether the
second code point lies in a block that can take part in a canonical
composition (combining diacriticals, Hangul Jamo vowels/trailers, and the
precomposed Latin range the table's second components draw from). -/
def IS_DECOMPOSABLE_BLOCK (uc : Nat) : Bool :=
  (0x300 ≤ uc && uc ≤ 0x36F) || (0x1161 ≤ uc && uc ≤ 0x1175) ||
  (0x11A8 ≤ uc && uc ≤ 0x11C2) || (0xC0 ≤ uc && uc ≤ 0xFF)

/-- `WRITE_UC`: emit the first code point — copy its original bytes
verbatim when `ucptr` is still set, else re-encode `uc`. -/
def writeUC (uc : Nat) (ucptr : Option (List Nat)) : List Nat :=
  match ucptr with
  | some bytes => bytes
  | none => unicode_to_utf8 uc

/-- Loop state shared by `COLLECT_CPS` and the composition search of
`archive_string_normalize_C`: the input cursor, the collected
`(ucx[i], ccx[i])` pairs, and the scratch variables `cl`, `cx`, `nx`. -/
structure NormSt where
  s : List Nat
  len : Nat
  cl : Nat
  cx : Nat
  nx : Int
  items : List (Nat × Nat)
  ret : Int
  deriving Repr, DecidableEq

/-- `COLLECT_CPS(start)`: collect up to `FDC_MAX = 10` following
decomposable code points, stopping on a non-positive decode or a blocking
combining class (with the 228 exception); reaching `FDC_MAX` sets
`ret = -1`. `i` is the macro's `_i`, `st.items.length` tracks `ucx_size`. -/
def collect_cps (st : NormSt) (i : Nat) : NormSt :=
  go (10 - i) st
where
  go : Nat → NormSt → NormSt
    | 0, st => { st with ret := -1 }
    | fuel + 1, st =>
      let r := cesu8_to_unicode st.s st.len
      if r.1 ≤ 0 then { st with nx := r.1 }
      else
        let u := r.2.getD 0
        let cx := CCC u
        if st.cl ≥ cx ∧ st.cl ≠ 228 ∧ cx ≠ 228 then
          { st with nx := r.1, cx := cx }
        else
          go fuel
            { st with
              s := st.s.drop r.1.toNat,
              len := st.len - r.1.toNat,
              cl := cx, cx := cx, nx := r.1,
              items := st.items ++ [(u, cx)] }

/-- The composition search of `archive_string_normalize_C`: scan the
collected code points for one that composes with `uc`; on success remove
it, possibly collect more blocked code points, and restart from the top.
`fuel` bounds the restarts (the C loop terminates because every removal
shrinks `ucx` and every re-collection consumes input). -/
def compose_loop (fuel : Nat) (uc : Nat) (ucptr : Option (List Nat))
    (st : NormSt) (i : Nat) : Nat × Option (List Nat) × NormSt :=
  match fuel with
  | 0 => (uc, ucptr, st)
  | fuel + 1 =>
    if i < st.items.length then
      let nfc := get_nfc uc (st.items.getD i (0, 0)).1
      if nfc = 0 then compose_loop fuel uc ucptr st (i + 1)
      else
        let items := st.items.eraseIdx i
        let st := { st with items := items }
        if 0 < items.length ∧ i = items.length ∧ st.nx > 0 ∧ st.cx = st.cl then
          let st := { st with cl := (items.getD (items.length - 1) (0, 0)).2 }
          compose_loop fuel nfc none (collect_cps st items.length) 0
        else
          compose_loop fuel nfc none st 0
    else (uc, ucptr, st)

/-- The `Flush out remaining canonical combining characters` loop of
`archive_string_normalize_C`: keep copying combining characters whose
class does not drop below the running one. -/
def flush_loop (fuel : Nat) (s : List Nat) (len cl : Nat) (acc : List Nat) :
    List Nat × Nat × List Nat :=
  match fuel with
  | 0 => (s, len, acc)
  | fuel + 1 =>
    let r := cesu8_to_unicode s len
    if r.1 > 0 then
      let u := r.2.getD 0
      let cx := CCC u
      if cl > cx then (s, len, acc)
      else flush_loop fuel (s.drop r.1.toNat) (len - r.1.toNat) cx
        (acc ++ unicode_to_utf8 u)
    else (s, len, acc)

/-- The inner (second-code-point) loop of `archive_string_normalize_C`.
Returns the advanced cursor, the output accumulated so far, `ret`, and
`true` when the outer do-while must stop unconditionally (the `n2 == 0`
arm breaks out of it); on `false` the do-while condition `len > 0`
decides. -/
def normalize_inner (fuel : Nat) (s : List Nat) (len uc : Nat)
    (ucptr : Option (List Nat)) (acc : List Nat) (ret : Int) :
    List Nat × Nat × List Nat × Int × Bool :=
  match fuel with
  | 0 => (s, len, acc, ret, true)
  | fuel + 1 =>
    let r2 := cesu8_to_unicode s len
    if r2.1 < 0 then
      -- n2 < 0: write uc, then the replacement character, continue outer
      (s.drop r2.1.natAbs, len - r2.1.natAbs,
       acc ++ writeUC uc ucptr ++ unicode_to_utf8 (r2.2.getD 0), -1, false)
    else if r2.1 = 0 then (s, len, acc ++ writeUC uc ucptr, ret, true)
    else
      let uc2 := r2.2.getD 0
      let uc2ptr : Option (List Nat) :=
        if r2.1 = 6 then none else some (s.take r2.1.toNat)
      let s := s.drop r2.1.toNat
      let len := len - r2.1.toNat
      if ¬ IS_DECOMPOSABLE_BLOCK uc2 then
        normalize_inner fuel s len uc2 uc2ptr (acc ++ writeUC uc ucptr) ret
      else if 0 ≤ (uc : Int) - 0x1100 ∧ (uc : Int) - 0x1100 < 19 then
        -- Hangul composition, L + V -> LV
        if 0 ≤ (uc2 : Int) - 0x1161 ∧ (uc2 : Int) - 0x1161 < 21 then
          normalize_inner fuel s len
            (0xAC00 + ((uc - 0x1100) * 21 + (uc2 - 0x1161)) * 28) none acc ret
        else normalize_inner fuel s len uc2 uc2ptr (acc ++ writeUC uc ucptr) ret
      else if 0 ≤ (uc : Int) - 0xAC00 ∧ (uc : Int) - 0xAC00 < 11172 ∧
          (uc - 0xAC00) % 28 = 0 then
        -- Hangul composition, LV + T -> LVT
        if 0 < (uc2 : Int) - 0x11A7 ∧ (uc2 : Int) - 0x11A7 < 28 then
          normalize_inner fuel s len (uc + (uc2 - 0x11A7)) none acc ret
        else normalize_inner fuel s len uc2 uc2ptr (acc ++ writeUC uc ucptr) ret
      else if get_nfc uc uc2 ≠ 0 then
        normalize_inner fuel s len (get_nfc uc uc2) none acc ret
      else if CCC uc2 = 0 then
        normalize_inner fuel s len uc2 uc2ptr (acc ++ writeUC uc ucptr) ret
      else
        -- collect following decomposable code points, search compositions,
        -- write the result, flush trailing combining characters, break
        let cl := CCC uc2
        let st0 : NormSt :=
          ⟨s, len, cl, 0, 0, [(uc2, cl)], ret⟩
        let st1 := collect_cps st0 1
        let c := compose_loop (12 * st1.len + 200) uc ucptr st1 1
        let uc := c.1
        let ucptr := c.2.1
        let st := c.2.2
        let acc := acc ++ writeUC uc ucptr ++
          (st.items.map (fun it => unicode_to_utf8 it.1)).flatten
        if st.nx > 0 ∧ st.cx = st.cl ∧ st.len > 0 then
          let f := flush_loop (st.len + 1) st.s st.len st.cl acc
          (f.1, f.2.1, f.2.2, st.ret, false)
        else (st.s, st.len, acc, st.ret, false)

/-- The outer do-while of `archive_string_normalize_C`, producing the
output bytes and the return value. -/
def normalize_loop (fuel : Nat) (s : List Nat) (len : Nat) (acc : List Nat)
    (ret : Int) : List Nat × Int :=
  match fuel with
  | 0 => (acc, ret)
  | fuel + 1 =>
    let r := cesu8_to_unicode s len
    if r.1 < 0 then
      let s := s.drop r.1.natAbs
      let len := len - r.1.natAbs
      let acc := acc ++ unicode_to_utf8 (r.2.getD 0)
      if len > 0 then normalize_loop fuel s len acc (-1) else (acc, -1)
    else if r.1 = 0 then (acc, ret)
    else
      let uc := r.2.getD 0
      let ucptr : Option (List Nat) :=
        if r.1 = 6 then none else some (s.take r.1.toNat)
      let i := normalize_inner (len + 1) (s.drop r.1.toNat) (len - r.1.toNat)
        uc ucptr acc ret
      -- the n2 = 0 arm breaks out; otherwise the do-while condition decides
      if ¬ i.2.2.2.2 ∧ i.2.1 > 0 then
        normalize_loop fuel i.1 i.2.1 i.2.2.1 i.2.2.2.1
      else (i.2.2.1, i.2.2.2.1)

/-- `archive_string_normalize_C`: normalize `len` bytes of `p` to Form C
and append the result (the in-loop buffer regrowth only affects capacity
and is subsumed by the always-successful allocation model). -/
def archive_string_normalize_C (as : ArchiveString) (p : List Nat)
    (len : Nat) : ArchiveString × Int :=
  let as1 := (archive_string_ensure as ((as.data.length + len + 1) % sizeTMod)).1
  let r := normalize_loop (len + 1) p len [] 0
  ({ as1 with data := as1.data ++ r.1 }, r.2)

/-- `SCONV_*` mode-flag constants from the source. -/
def SCONV_TO_CHARSET : Nat := 1

def SCONV_FROM_CHARSET : Nat := 2

def SCONV_BEST_EFFORT : Nat := 4

def SCONV_UTF16BE : Nat := 16

def SCONV_UTF8_LIBARCHIVE_2 : Nat := 32

def SCONV_COPY_UTF8_TO_UTF8 : Nat := 64

def SCONV_NORMALIZATION_C : Nat := 128

def SCONV_TO_UTF8 : Nat := 512

/-- Model of `struct archive_string_conv` as the conversion paths consult
it: the mode-flag bitmask and the precomputed `same` bit (the charset
names, codepages and cached scratch buffer do not feed the embedded
paths). -/
structure ArchiveStringConv where
  flag : Nat
  same : Bool
  deriving Repr, DecidableEq

/-- Modelled from the spec: the host `wctomb`/`wcrtomb` primitive is an
external collaborator; under the modelled C/POSIX locale a wide character
below 0x80 maps to the identical single byte and everything else fails. -/
def la_wctomb (wc : Nat) : Option (List Nat) :=
  if wc ≤ 0x7F then some [wc] else none

/-- `strncat_from_utf8_libarchive2`: decode each UTF-8 sequence leniently,
treat the code point as one wide character and re-encode it through the
host `wctomb` (replacing failed decodes with `?`); a `wctomb` failure
aborts with -1 keeping the output produced so far. -/
def strncat_from_utf8_libarchive2_loop (fuel : Nat) (s : List Nat)
    (len : Nat) (acc : List Nat) : List Nat × Int :=
  match fuel with
  | 0 => (acc, 0)
  | fuel + 1 =>
    if s.getD 0 0 ≠ 0 ∧ len > 0 then
      let r := utf8_to_unicode_strict s len
      let n := if r.1 < 0 then (-r.1).toNat else r.1.toNat
      let wc := if r.1 < 0 then 0x3F else r.2.getD 0
      match la_wctomb wc with
      | none => (acc, -1)
      | some bytes =>
        strncat_from_utf8_libarchive2_loop fuel (s.drop n) (len - n)
          (acc ++ bytes)
    else (acc, 0)

/-- `strncat_from_utf8_libarchive2` applied to an `archive_string`. -/
def strncat_from_utf8_libarchive2 (as : ArchiveString) (p : List Nat)
    (len : Nat) : ArchiveString × Int :=
  let as1 := (archive_string_ensure as ((as.data.length + len + 1) % sizeTMod)).1
  let r := strncat_from_utf8_libarchive2_loop (len + 1) p len []
  ({ as1 with data := as1.data ++ r.1 }, r.2)

/-- The fast-forward loop of `strncat_from_utf8_to_utf8`: consume clean
decodes, tracking the bytes consumed, the running `uc` variable (updated
only when the C code stores through `pwc`) and the non-positive stopping
result. -/
def sfuu_forward (fuel : Nat) (s : List Nat) (len uc : Nat) :
    Nat × Nat × Int :=
  match fuel with
  | 0 => (0, uc, 0)
  | fuel + 1 =>
    let r := utf8_to_unicode_strict s len
    if r.1 > 0 then
      let rest := sfuu_forward fuel (s.drop r.1.toNat) (len - r.1.toNat)
        (r.2.getD uc)
      (r.1.toNat + rest.1, rest.2.1, rest.2.2)
    else (0, r.2.getD uc, r.1)

/-- The do-while of `strncat_from_utf8_to_utf8`: copy clean stretches
verbatim; on a negative decode retry the CESU-8 decoder for rejected
3-byte surrogates, then re-encode the current `uc` variable.  `uc0` is
the value the uninitialized local `uc` of the C function would hold when
it is read before any decoder has stored through it. -/
def sfuu_loop (fuel : Nat) (s : List Nat) (len uc : Nat) (acc : List Nat)
    (ret : Int) : List Nat × Int :=
  match fuel with
  | 0 => (acc, ret)
  | fuel + 1 =>
    let f := sfuu_forward (len + 1) s len uc
    let acc := acc ++ s.take f.1
    let s := s.drop f.1
    let len := len - f.1
    let uc := f.2.1
    let n := f.2.2
    if n < 0 then
      let rc : Int × Nat :=
        if n = -3 ∧ isSurrogate uc then
          let c := cesu8_to_unicode s len
          (c.1, c.2.getD uc)
        else (n, uc)
      let uc := rc.2
      let ret := if rc.1 < 0 then -1 else ret
      let n := if rc.1 < 0 then -rc.1 else rc.1
      let acc := acc ++ unicode_to_utf8 uc
      if n > 0 then
        sfuu_loop fuel (s.drop n.toNat) (len - n.toNat) uc acc ret
      else (acc, ret)
    else (acc, ret)

/-- `strncat_from_utf8_to_utf8`: copy a UTF-8 string while canonicalizing
CESU-8 surrogate pairs.  `uc0` models the initial contents of the
function's uninitialized `uc` local. -/
def strncat_from_utf8_to_utf8 (uc0 : Nat) (as : ArchiveString)
    (p : List Nat) (len : Nat) : ArchiveString × Int :=
  let as1 := (archive_string_ensure as ((as.data.length + len + 1) % sizeTMod)).1
  let r := sfuu_loop (len + 1) p len uc0 [] 0
  ({ as1 with data := as1.data ++ r.1 }, r.2)

/-- `invalid_mbs`: test whether the bytes convert cleanly to wide
characters via the host `mbrtowc` (an external collaborator, modelled as
the C/POSIX locale: bytes below 0x80 are single-byte characters, a NUL
stops the scan, anything else is invalid). -/
def invalid_mbs (p : List Nat) (n : Nat) : Int :=
  go (p.take n)
where
  go : List Nat → Int
    | [] => 0
    | b :: rest => if b = 0 then 0 else if b < 0x80 then go rest else -1

/-- The trailing ASCII-or-substitute loop of
`best_effort_strncat_in_locale`: copy ASCII bytes, replace a byte with
the sign bit set by U+FFFD's UTF-8 bytes (destination UTF-8) or `?`,
reporting -1 when any replacement happened. -/
def best_effort_loop (bytes : List Nat) (toUtf8 : Bool) : List Nat × Int :=
  match bytes with
  | [] => ([], 0)
  | b :: rest =>
    if b = 0 then ([], 0)
    else
      let t := best_effort_loop rest toUtf8
      if 0x80 ≤ b then
        (((if toUtf8 then [0xEF, 0xBF, 0xBD] else [0x3F])) ++ t.1, -1)
      else (b :: t.1, t.2)

/-- `best_effort_strncat_in_locale` (portable build: the Windows code page
branch is compiled out).  Dispatches on the conversion flags, handles the
NULL/`same` verbatim-copy-plus-validate case, then falls back to the
ASCII-preserving substitution loop.  `uc0` threads the uninitialized
local of `strncat_from_utf8_to_utf8`. -/
def best_effort_strncat_in_locale (uc0 : Nat) (as : ArchiveString)
    (p : List Nat) (n : Nat) (sc : Option ArchiveStringConv) :
    ArchiveString × Int :=
  let length := la_strnlen (memOf p) n
  match sc with
  | some c =>
    if c.flag &&& SCONV_UTF8_LIBARCHIVE_2 ≠ 0 then
      strncat_from_utf8_libarchive2 as p length
    else if c.flag &&& SCONV_COPY_UTF8_TO_UTF8 ≠ 0 then
      if c.flag &&& SCONV_NORMALIZATION_C ≠ 0 then
        archive_string_normalize_C as p length
      else strncat_from_utf8_to_utf8 uc0 as p length
    else if c.same then
      ((archive_string_append as (memOf p) 0 length).1, invalid_mbs p length)
    else
      let as1 := (archive_string_ensure as
        ((as.data.length + length + 1) % sizeTMod)).1
      let r := best_effort_loop (p.take length) (c.flag &&& SCONV_TO_UTF8 ≠ 0)
      ({ as1 with data := as1.data ++ r.1 }, r.2)
  | none => ((archive_string_append as (memOf p) 0 length).1, 0)

/-- `archive_strncat_in_locale` in the portable (no-iconv) build: defer to
`best_effort_strncat_in_locale`. -/
def archive_strncat_in_locale (uc0 : Nat) (as : ArchiveString)
    (p : List Nat) (n : Nat) (sc : Option ArchiveStringConv) :
    ArchiveString × Int :=
  best_effort_strncat_in_locale uc0 as p n sc

/-- `archive_strncpy_in_locale`: empty the destination, then convert.  The
`SCONV_UTF16BE` dispatch is outside every embedded conversion object (no
claim concerns UTF-16BE), so the model covers the non-UTF-16BE objects. -/
def archive_strncpy_in_locale (uc0 : Nat) (as : ArchiveString)
    (p : List Nat) (n : Nat) (sc : Option ArchiveStringConv) :
    ArchiveString × Int :=
  archive_strncat_in_locale uc0 { as with data := [] } p n sc

/-- `archive_strcpy_in_locale` (header macro, not under `src/`): modelled
from the spec as `archive_strncpy_in_locale` with the same fixed 16M bound
`archive_strcat` uses. -/
def archive_strcpy_in_locale (uc0 : Nat) (as : ArchiveString)
    (p : List Nat) (sc : Option ArchiveStringConv) : ArchiveString × Int :=
  archive_strncpy_in_locale uc0 as p 0x1000000 sc

/-- The conversion object `archive_string_conversion_to_charset(a,
"UTF-8", 1)` builds in the modelled configuration (current locale is the
C locale, so the charset names differ and no codepages match):
`SCONV_TO_CHARSET | SCONV_BEST_EFFORT | SCONV_TO_UTF8`, `same = 0`. -/
def sconv_to_utf8 : ArchiveStringConv :=
  ⟨SCONV_TO_CHARSET + SCONV_BEST_EFFORT + SCONV_TO_UTF8, false⟩

/-- The conversion object `archive_string_conversion_from_charset(a,
"UTF-8", 1)` builds in the modelled configuration: the `from` charset is
UTF-8, so `create_sconv_object` adds `SCONV_NORMALIZATION_C`;
`SCONV_FROM_CHARSET | SCONV_BEST_EFFORT | SCONV_NORMALIZATION_C`,
`same = 0`. -/
def sconv_from_utf8 : ArchiveStringConv :=
  ⟨SCONV_FROM_CHARSET + SCONV_BEST_EFFORT + SCONV_NORMALIZATION_C, false⟩

/-- A conversion object for an identical non-UTF-8 `(from, to)` charset
pair in the modelled configuration (for example `ISO-8859-1` to itself,
best-effort): `create_sconv_object` computes `same = 1` and no UTF-8 copy
flag. -/
def sconv_same : ArchiveStringConv :=
  ⟨SCONV_TO_CHARSET + SCONV_BEST_EFFORT, true⟩

/-- `strlen` over the list model of a NUL-terminated C string: the list
supplies the bytes, the terminator sits just past it (`memOf` reads 0
there). -/
def c_strlen (l : List Nat) : Nat := la_strnlen (memOf l) (l.length + 1)

/-- `archive_wstring_append_from_mbs` (portable `mbrtowc` loop build):
convert up to `len` multibyte characters to wide characters through the
host `mbrtowc` (modelled as the C/POSIX locale), failing with -1 on an
invalid byte while keeping the wide characters already produced. -/
def archive_wstring_append_from_mbs (dest : ArchiveString) (p : List Nat)
    (len : Nat) : ArchiveString × Int :=
  let d := (archive_string_ensure dest
    ((dest.data.length + len + 1) % sizeTMod)).1
  go d (p.take len) len
where
  go (d : ArchiveString) (mbs : List Nat) (wcs_length : Nat) :
      ArchiveString × Int :=
    match wcs_length, mbs with
    | 0, _ => (d, 0)
    | _, [] => (d, 0)
    | w + 1, b :: rest =>
      if b = 0 then (d, 0)
      else if b < 0x80 then go { d with data := d.data ++ [b] } rest w
      else (d, -1)

/-- `AES_SET_*` bits of `struct archive_mstring` (declared in
`archive_string.h`, which is not under `src/`; the values are the ones
the source's bit tests rely on): MBS = 1, WCS = 2, UTF8 = 4. -/
def AES_SET_MBS : Nat := 1

/-- See `AES_SET_MBS`. -/
def AES_SET_WCS : Nat := 2

/-- See `AES_SET_MBS`. -/
def AES_SET_UTF8 : Nat := 4

/-- Model of `struct archive_mstring`. -/
structure ArchiveMstring where
  aes_mbs : ArchiveString
  aes_utf8 : ArchiveString
  aes_wcs : ArchiveString
  aes_mbs_in_locale : ArchiveString
  aes_set : Nat
  deriving Repr, DecidableEq

/-- A zeroed `archive_mstring`, as embedded in a fresh archive entry. -/
def archive_mstring_init : ArchiveMstring :=
  ⟨archive_string_init, archive_string_init, archive_string_init,
   archive_string_init, 0⟩

/-- The C string pointer a caller receives: NULL when the buffer was never
allocated, otherwise the buffer contents. -/
def strPtr (as : ArchiveString) : Option (List Nat) :=
  if as.alloc then some as.data else none

/-- `archive_mstring_copy_mbs_len`: store the MBS form, clear the other
forms, mask := MBS only. -/
def archive_mstring_copy_mbs_len (aes : ArchiveMstring) (mbs : List Nat)
    (len : Nat) : ArchiveMstring × Int :=
  ({ aes with
     aes_set := AES_SET_MBS,
     aes_mbs := (archive_strncat { aes.aes_mbs with data := [] }
       (memOf mbs) len).1,
     aes_utf8 := archive_string_empty aes.aes_utf8,
     aes_wcs := archive_string_empty aes.aes_wcs }, 0)

/-- `archive_mstring_copy_mbs` on a non-NULL C string: length by
`strlen`. -/
def archive_mstring_copy_mbs (aes : ArchiveMstring) (mbs : List Nat) :
    ArchiveMstring × Int :=
  archive_mstring_copy_mbs_len aes mbs (c_strlen mbs)

/-- `archive_mstring_get_utf8` exactly as this source writes it: when only
the MBS form is set, convert it to UTF-8 with the destination argument
`&(aes->aes_mbs)` — the MBS field itself — then on success mark the UTF-8
bit and hand back `aes->aes_utf8.s`.  `uc0` threads the uninitialized
local of the UTF-8 copy path (unused by the conversion objects built
here). -/
def archive_mstring_get_utf8 (uc0 : Nat) (aes : ArchiveMstring) :
    ArchiveMstring × Option (List Nat) × Int :=
  if aes.aes_set &&& AES_SET_UTF8 ≠ 0 then (aes, strPtr aes.aes_utf8, 0)
  else if aes.aes_set &&& AES_SET_MBS ≠ 0 then
    let conv := archive_strncpy_in_locale uc0 aes.aes_mbs aes.aes_mbs.data
      aes.aes_mbs.data.length (some sconv_to_utf8)
    let aes := { aes with aes_mbs := conv.1 }
    if conv.2 = 0 then
      ({ aes with aes_set := aes.aes_set ||| AES_SET_UTF8 },
       strPtr aes.aes_utf8, 0)
    else (aes, none, -1)
  else (aes, none, 0)

/-- `archive_mstring_update_utf8` on a non-NULL input: store the UTF-8
form, clear the others, then try UTF-8 to MBS (returning -1 on failure
with the UTF-8 form kept) and MBS to WCS — the latter is passed
`aes->aes_utf8.length` as the byte count of `aes->aes_mbs.s`. -/
def archive_mstring_update_utf8 (uc0 : Nat) (aes : ArchiveMstring)
    (utf8 : List Nat) : ArchiveMstring × Int :=
  let aes := { aes with
    aes_utf8 := (archive_strcat { aes.aes_utf8 with data := [] }
      (memOf utf8)).1 }
  let aes := { aes with
    aes_mbs := archive_string_empty aes.aes_mbs,
    aes_wcs := archive_string_empty aes.aes_wcs }
  let aes := { aes with aes_set := AES_SET_UTF8 }
  let conv := archive_strcpy_in_locale uc0 aes.aes_mbs utf8
    (some sconv_from_utf8)
  let aes := { aes with aes_mbs := conv.1 }
  if conv.2 ≠ 0 then (aes, -1)
  else
    let aes := { aes with aes_set := AES_SET_UTF8 ||| AES_SET_MBS }
    let w := archive_wstring_append_from_mbs aes.aes_wcs aes.aes_mbs.data
      aes.aes_utf8.data.length
    let aes := { aes with aes_wcs := w.1 }
    if w.2 ≠ 0 then (aes, -1)
    else ({ aes with
      aes_set := AES_SET_UTF8 ||| AES_SET_WCS ||| AES_SET_MBS }, 0)

/-- C4: after `archive_mstring_copy_mbs` stores the pure-ASCII bytes
"hello", `archive_mstring_get_utf8` reports success and sets both the MBS
and UTF8 mask bits, but it has stored the converted bytes into the MBS
field (`&(aes->aes_mbs)` is the destination of the conversion) and hands
back the never-populated `aes_utf8.s`, which is still NULL — not the
bytes "hello" the claim promises. -/
theorem mstring_get_utf8_after_copy_mbs_bug :
    ∀ uc0 : Nat,
    (archive_mstring_get_utf8 uc0 (archive_mstring_copy_mbs
      archive_mstring_init [0x68, 0x65, 0x6C, 0x6C, 0x6F]).1).2.2 = 0 ∧
    (archive_mstring_get_utf8 uc0 (archive_mstring_copy_mbs
      archive_mstring_init [0x68, 0x65, 0x6C, 0x6C, 0x6F]).1).1.aes_set =
      AES_SET_MBS + AES_SET_UTF8 ∧
    (archive_mstring_get_utf8 uc0 (archive_mstring_copy_mbs
      archive_mstring_init [0x68, 0x65, 0x6C, 0x6C, 0x6F]).1).2.1 =
      none ∧
    (archive_mstring_get_utf8 uc0 (archive_mstring_copy_mbs
      archive_mstring_init [0x68, 0x65, 0x6C, 0x6C, 0x6F]).1).2.1 ≠
      some [0x68, 0x65, 0x6C, 0x6C, 0x6F] := by
  intro uc0
  refine ⟨?_, ?_, ?_, ?_⟩
  · with_unfolding_all rfl
  · with_unfolding_all rfl
  · with_unfolding_all rfl
  · intro h
    exact Option.noConfusion ((by with_unfolding_all rfl :
      (archive_mstring_get_utf8 uc0 (archive_mstring_copy_mbs
        archive_mstring_init [0x68, 0x65, 0x6C, 0x6C, 0x6F]).1).2.1 =
        none) ▸ h)

/-- C6: feeding the raw 3-byte encoding of the unpaired high surrogate
U+D800 through `strncat_from_utf8_to_utf8` does not produce U+FFFD with a
replacement report.  The strict decoder's surrogate rejection returns -3
without storing through `pwc`, so the repair decision reads the
uninitialized `uc` local: after a clean `"A"` the stale value is 0x41 and
the function emits `"AA"`; on the bare surrogate with (say) stale 0xD800
it emits U+FFFD's bytes but reports clean success (the CESU-8 decoder's
`invalid_sequence` exit returns its byte count unnegated, contradicting
the comment above it). -/
theorem utf8_repair_unpaired_surrogate_bug :
    (∀ uc0 : Nat,
      strncat_from_utf8_to_utf8 uc0 archive_string_init
        [0x41, 0xED, 0xA0, 0x80] 4 =
      ({ data := [0x41, 0x41], buffer_length := 32, alloc := true }, -1)) ∧
    strncat_from_utf8_to_utf8 0xD800 archive_string_init
        [0xED, 0xA0, 0x80] 3 =
      ({ data := [0xEF, 0xBF, 0xBD], buffer_length := 32, alloc := true }, 0) := by
  constructor
  · intro uc0
    with_unfolding_all rfl
  · with_unfolding_all rfl

/-- C7: `archive_string_normalize_C` is not idempotent.  On the input
`ED A0 80 41 41 41` the CESU-8 decoder misreports the invalid unpaired
surrogate as a successful 1-byte decode (its `invalid_sequence` exit
returns the count unnegated), so the first pass copies the bare byte
`ED` verbatim; the second pass replaces that byte with `EF BF BD`,
changing the output. -/
theorem normalize_C_not_idempotent_bug :
    (archive_string_normalize_C archive_string_init
      [0xED, 0xA0, 0x80, 0x41, 0x41, 0x41] 6).1.data =
      [0xED, 0xEF, 0xBF, 0xBD, 0xEF, 0xBF, 0xBD, 0x41, 0x41, 0x41] ∧
    (archive_string_normalize_C archive_string_init
        (archive_string_normalize_C archive_string_init
          [0xED, 0xA0, 0x80, 0x41, 0x41, 0x41] 6).1.data
        (archive_string_normalize_C archive_string_init
          [0xED, 0xA0, 0x80, 0x41, 0x41, 0x41] 6).1.data.length).1.data =
      [0xEF, 0xBF, 0xBD, 0xEF, 0xBF, 0xBD, 0xEF, 0xBF, 0xBD,
       0x41, 0x41, 0x41] ∧
    (archive_string_normalize_C archive_string_init
        (archive_string_normalize_C archive_string_init
          [0xED, 0xA0, 0x80, 0x41, 0x41, 0x41] 6).1.data
        (archive_string_normalize_C archive_string_init
          [0xED, 0xA0, 0x80, 0x41, 0x41, 0x41] 6).1.data.length).1.data ≠
      (archive_string_normalize_C archive_string_init
        [0xED, 0xA0, 0x80, 0x41, 0x41, 0x41] 6).1.data := by
  refine ⟨by decide, by decide, by decide⟩

/-- C3 counterexample: with a `same`-encoding best-effort conversion
object, input containing the invalid byte `0xFF` is copied byte-identically
(`0xFF` stays in the output; neither `?` nor U+FFFD's bytes are
substituted), while the call reports -1.  This refutes the claim that
invalid bytes are replaced in the output on the same-encoding path. -/
theorem best_effort_same_counterexample :
    let r := best_effort_strncat_in_locale 0 archive_string_init
      [0xFF] 1 (some sconv_same)
    r.1.data = [0xFF] ∧ r.2 = -1 ∧
      r.1.data ≠ [0x3F] ∧ r.1.data ≠ [0xEF, 0xBF, 0xBD] := by
  refine ⟨by decide, by decide, by decide, by decide⟩

/-- C1: `archive_string_ensure` is a no-op when the buffer exists and the
request fits; otherwise the new capacity starts at 32 below 32, doubles
below 8192, grows by 25% at 8192 and above — raised exactly to the
request when the grown size is still short — and when the 25% growth
computation wraps around `size_t` the buffer is freed (length 0,
capacity 0, data NULL) and the call fails. -/
theorem archive_string_ensure_growth_spec (as : ArchiveString) (s : Nat)
    (hbl : as.buffer_length < sizeTMod) :
    (as.alloc = true ∧ s ≤ as.buffer_length →
      archive_string_ensure as s = (as, true)) ∧
    (¬ (as.alloc = true ∧ s ≤ as.buffer_length) →
      (let grown := if as.buffer_length < 32 then 32
        else if as.buffer_length < 8192 then
          as.buffer_length + as.buffer_length
        else as.buffer_length + as.buffer_length / 4
      if grown < sizeTMod then
        archive_string_ensure as s =
          ({ as with
             buffer_length := if grown < s then s else grown,
             alloc := true }, true)
      else archive_string_ensure as s = (⟨[], 0, false⟩, false))) := by
  constructor
  · intro h
    rw [archive_string_ensure, if_pos h]
  · intro h
    rw [archive_string_ensure, if_neg h]
    by_cases h32 : as.buffer_length < 32
    · simp only [h32, if_true, if_pos (by norm_num [sizeTMod] : (32 : Nat) < sizeTMod)]
      rw [if_neg (by omega)]
    · by_cases h8k : as.buffer_length < 8192
      · simp only [h32, if_false, h8k, if_true]
        rw [if_pos (by simp [sizeTMod]; omega),
          if_neg (by omega : ¬ (8192 ≤ as.buffer_length ∧
            (as.buffer_length + as.buffer_length) % sizeTMod <
              as.buffer_length))]
        have : (as.buffer_length + as.buffer_length) % sizeTMod =
            as.buffer_length + as.buffer_length := by
          apply Nat.mod_eq_of_lt; simp [sizeTMod]; omega
        rw [this]
      · simp only [h32, if_false, h8k]
        by_cases hw : as.buffer_length + as.buffer_length / 4 < sizeTMod
        · rw [if_pos hw]
          have hmod : (as.buffer_length + as.buffer_length / 4) % sizeTMod =
              as.buffer_length + as.buffer_length / 4 :=
            Nat.mod_eq_of_lt hw
          rw [hmod, if_neg (by omega : ¬ (8192 ≤ as.buffer_length ∧
            as.buffer_length + as.buffer_length / 4 < as.buffer_length))]
        · rw [if_neg hw]
          have hmod : (as.buffer_length + as.buffer_length / 4) % sizeTMod =
              as.buffer_length + as.buffer_length / 4 - sizeTMod := by
            rw [Nat.mod_eq_sub_mod (by omega), Nat.mod_eq_of_lt (by omega)]
          rw [if_pos (by constructor <;> omega)]
          rfl

/-- Witness for C1 at concrete inputs: growing an allocated 40-element
buffer to 100 raises the capacity exactly to the request, and a 25%
growth step that would wrap `size_t` frees the buffer and fails. -/
theorem archive_string_ensure_growth_spec_witness :
    archive_string_ensure ⟨[1, 2], 40, true⟩ 100 =
      (⟨[1, 2], 100, true⟩, true) ∧
    archive_string_ensure ⟨[], 14757395258967641293, true⟩
        14757395258967641294 =
      (⟨[], 0, false⟩, false) := by
  constructor
  · have h := (archive_string_ensure_growth_spec ⟨[1, 2], 40, true⟩ 100
      (by norm_num [sizeTMod])).2 (by simp)
    rw [if_pos (by norm_num [sizeTMod])] at h
    simpa using h
  · have h := (archive_string_ensure_growth_spec
      ⟨[], 14757395258967641293, true⟩ 14757395258967641294
      (by norm_num [sizeTMod])).2 (by simp)
    rw [if_neg (by norm_num [sizeTMod])] at h
    simpa using h

/-- The scan never returns less than its cursor. -/
theorem la_strnlen_from_ge (p : Nat → Nat) :
    ∀ fuel i, i ≤ la_strnlen_from p fuel i := by
  intro fuel
  induction fuel with
  | zero => intro i; simp [la_strnlen_from]
  | succ k ih =>
    intro i
    rw [la_strnlen_from]
    split
    · exact le_trans (Nat.le_succ i) (ih (i + 1))
    · exact le_refl i

/-- The scan never passes its bound. -/
theorem la_strnlen_from_le (p : Nat → Nat) :
    ∀ fuel i, la_strnlen_from p fuel i ≤ i + fuel := by
  intro fuel
  induction fuel with
  | zero => intro i; simp [la_strnlen_from]
  | succ k ih =>
    intro i
    rw [la_strnlen_from]
    split
    · exact le_trans (ih (i + 1)) (by omega)
    · omega

/-- Every element the scan passed over is nonzero. -/
theorem la_strnlen_from_ne (p : Nat → Nat) :
    ∀ fuel i j, i ≤ j → j < la_strnlen_from p fuel i → p j ≠ 0 := by
  intro fuel
  induction fuel with
  | zero => intro i j h1 h2; rw [la_strnlen_from] at h2; omega
  | succ k ih =>
    intro i j h1 h2
    rw [la_strnlen_from] at h2
    by_cases hp : p i ≠ 0
    · rw [if_pos hp] at h2
      rcases Nat.eq_or_lt_of_le h1 with rfl | h1
      · exact hp
      · exact ih (i + 1) j h1 h2
    · rw [if_neg hp] at h2; omega

/-- When the scan stops early, it stops on a zero element. -/
theorem la_strnlen_from_stop (p : Nat → Nat) :
    ∀ fuel i, la_strnlen_from p fuel i < i + fuel →
      p (la_strnlen_from p fuel i) = 0 := by
  intro fuel
  induction fuel with
  | zero => intro i h; rw [la_strnlen_from] at h ⊢; omega
  | succ k ih =>
    intro i h
    rw [la_strnlen_from] at h ⊢
    by_cases hp : p i ≠ 0
    · rw [if_pos hp] at h ⊢
      exact ih (i + 1) (by omega)
    · rw [if_neg hp] at h ⊢
      simpa using hp

/-- The scan only examines positions below its bound. -/
theorem la_strnlen_from_congr (p q : Nat → Nat) :
    ∀ fuel i, (∀ j, i ≤ j → j < i + fuel → p j = q j) →
      la_strnlen_from p fuel i = la_strnlen_from q fuel i := by
  intro fuel
  induction fuel with
  | zero => intro i _; rw [la_strnlen_from, la_strnlen_from]
  | succ k ih =>
    intro i h
    rw [la_strnlen_from, la_strnlen_from,
      h i (le_refl i) (by omega)]
    split
    · exact ih (i + 1) (fun j h1 h2 => h j (by omega) (by omega))
    · rfl

/-- On the memory view of a NUL-free list that fits the bound, the scan
returns the list length. -/
theorem la_strnlen_memOf (l : List Nat) (n : Nat)
    (hz : ∀ b ∈ l, b ≠ 0) (hn : l.length ≤ n) :
    la_strnlen (memOf l) n = l.length := by
  have hge := la_strnlen_from_ge (memOf l) n 0
  have hle := la_strnlen_from_le (memOf l) n 0
  have hne := la_strnlen_from_ne (memOf l) n
  have hst := la_strnlen_from_stop (memOf l) n 0
  unfold la_strnlen
  set r := la_strnlen_from (memOf l) n 0 with hr
  rcases Nat.lt_trichotomy r l.length with h | h | h
  · exfalso
    have : memOf l r = 0 := hst (by omega)
    have : l.getD r 0 = 0 := this
    rw [List.getD_eq_getElem l 0 (by omega)] at this
    exact hz _ (List.getElem_mem _) this
  · exact h
  · exfalso
    have h1 : memOf l l.length ≠ 0 := hne 0 l.length (by omega) (by omega)
    have : memOf l l.length = 0 := by
      simp [memOf, List.getD_eq_getElem?_getD]
    exact h1 this

/-- Reading a list back through its memory view reproduces it. -/
theorem range_map_memOf (l : List Nat) :
    (List.range l.length).map (fun i => memOf l (0 + i)) = l := by
  apply List.ext_getElem
  · simp
  · intro i h1 h2
    simp [memOf, List.getD, List.getElem?_eq_getElem h2]

/-- With a capacity below `2^63`, `archive_string_ensure` cannot wrap:
it succeeds, leaves the data alone and allocates. -/
theorem ensure_ok (as : ArchiveString) (s : Nat)
    (h : as.buffer_length < 2 ^ 63) :
    (archive_string_ensure as s).2 = true ∧
    (archive_string_ensure as s).1.data = as.data ∧
    ((as.alloc = true ∨ ¬ (as.alloc = true ∧ s ≤ as.buffer_length)) →
      (archive_string_ensure as s).1.alloc = true) := by
  unfold archive_string_ensure
  by_cases h0 : as.alloc = true ∧ s ≤ as.buffer_length
  · rw [if_pos h0]
    exact ⟨rfl, rfl, fun _ => h0.1⟩
  · rw [if_neg h0]
    have hmod : ∀ x : Nat, x < 2 ^ 64 → x % sizeTMod = x := by
      intro x hx
      exact Nat.mod_eq_of_lt (by simpa [sizeTMod] using hx)
    by_cases h32 : as.buffer_length < 32
    · simp only [h32, if_true]
      rw [if_neg (by omega)]
      exact ⟨rfl, rfl, fun _ => rfl⟩
    · by_cases h8k : as.buffer_length < 8192
      · simp only [h32, if_false, h8k, if_true]
        rw [hmod _ (by omega)]
        rw [if_neg (by omega)]
        exact ⟨rfl, rfl, fun _ => rfl⟩
      · simp only [h32, if_false, h8k]
        rw [hmod _ (by omega)]
        rw [if_neg (by omega)]
        exact ⟨rfl, rfl, fun _ => rfl⟩

/-- With a capacity below `2^63`, `archive_string_append` appends exactly
the `s` elements read at offsets `off .. off+s-1` and succeeds. -/
theorem append_spec (as : ArchiveString) (p : Nat → Nat) (off s : Nat)
    (h : as.buffer_length < 2 ^ 63) :
    (archive_string_append as p off s).2 = true ∧
    (archive_string_append as p off s).1.data =
      as.data ++ (List.range s).map (fun i => p (off + i)) ∧
    (archive_string_append as p off s).1.alloc = true := by
  obtain ⟨h1, h2, h3⟩ := ensure_ok as ((as.data.length + s + 1) % sizeTMod) h
  have halloc : (archive_string_ensure as
      ((as.data.length + s + 1) % sizeTMod)).1.alloc = true := by
    apply h3
    by_cases ha : as.alloc = true
    · exact Or.inl ha
    · exact Or.inr (fun hc => ha hc.1)
  simp only [archive_string_append, h1, if_true, h2, halloc]
  exact ⟨trivial, trivial, trivial⟩

/-- C9: `archive_strncat` appends exactly the elements of `p` preceding
the first zero among the first `n` (all `n` when none is zero), and it
never examines any element at an index at or beyond `n`: two sources that
agree below `n` produce identical results. -/
theorem archive_strncat_bounded_read (as : ArchiveString) (p q : Nat → Nat)
    (n : Nat) (hbl : as.buffer_length < 2 ^ 63) :
    (archive_strncat as p n).2 = true ∧
    (archive_strncat as p n).1.data =
      as.data ++ (List.range (la_strnlen p n)).map p ∧
    la_strnlen p n ≤ n ∧
    (∀ i, i < la_strnlen p n → p i ≠ 0) ∧
    (la_strnlen p n < n → p (la_strnlen p n) = 0) ∧
    ((∀ i, i < n → p i = q i) →
      archive_strncat as q n = archive_strncat as p n) := by
  obtain ⟨a1, a2, _⟩ := append_spec as p 0 (la_strnlen p n) hbl
  have hle : la_strnlen p n ≤ n := by
    have := la_strnlen_from_le p n 0
    unfold la_strnlen
    omega
  refine ⟨a1, ?_, hle, ?_, ?_, ?_⟩
  · show (archive_string_append as p 0 (la_strnlen p n)).1.data = _
    rw [a2]
    simp only [Nat.zero_add]
  · intro i hi
    exact la_strnlen_from_ne p n 0 i (Nat.zero_le i) hi
  · intro hlt
    have hlt2 : la_strnlen_from p n 0 < 0 + n := by
      unfold la_strnlen at hlt
      omega
    exact la_strnlen_from_stop p n 0 hlt2
  · intro hagree
    have hscan : la_strnlen q n = la_strnlen p n := by
      unfold la_strnlen
      exact la_strnlen_from_congr q p n 0
        (fun j _ h2 => (hagree j (by omega)).symm)
    have hmap : (List.range (la_strnlen p n)).map (fun i => q (0 + i)) =
        (List.range (la_strnlen p n)).map (fun i => p (0 + i)) := by
      apply List.map_congr_left
      intro i hi
      rw [List.mem_range] at hi
      have hin : 0 + i < n := by
        have := hle
        omega
      exact (hagree (0 + i) hin).symm
    show archive_string_append as q 0 (la_strnlen q n) =
      archive_string_append as p 0 (la_strnlen p n)
    rw [hscan]
    simp only [archive_string_append, hmap]

/-- Witness for C9 at a concrete memory: the source `1, 2, 0, 7, ...`
with bound 4 appends exactly `[1, 2]`, and changing the source at index 4
and beyond changes nothing. -/
theorem archive_strncat_bounded_read_witness :
    (archive_strncat archive_string_init (memOf [1, 2, 0, 7]) 4).1.data =
      [1, 2] ∧
    archive_strncat archive_string_init
        (fun i => if i < 4 then memOf [1, 2, 0, 7] i else 9) 4 =
      archive_strncat archive_string_init (memOf [1, 2, 0, 7]) 4 := by
  have h := archive_strncat_bounded_read archive_string_init
    (memOf [1, 2, 0, 7])
    (fun i => if i < 4 then memOf [1, 2, 0, 7] i else 9) 4 (by decide)
  constructor
  · rw [h.2.1]
    decide
  · exact h.2.2.2.2.2 (fun i hi => by simp [hi])

/-- C10: `archive_strcat` and `archive_wstrcat` are their strncat
counterparts with the fixed bound 0x1000000, so at most the first
0x1000000 elements of a NUL-terminated source are appended: a source with
no terminator below the bound is truncated to exactly 0x1000000 elements,
and one whose first zero sits at `k < 0x1000000` contributes exactly `k`
elements. -/
theorem archive_strcat_fixed_bound (as : ArchiveString) (p : Nat → Nat)
    (hbl : as.buffer_length < 2 ^ 63) :
    archive_strcat as p = archive_strncat as p 0x1000000 ∧
    archive_wstrcat as p = archive_wstrncat as p 0x1000000 ∧
    (archive_strcat as p).1.data =
      as.data ++ (List.range (la_strnlen p 0x1000000)).map p ∧
    la_strnlen p 0x1000000 ≤ 0x1000000 ∧
    ((∀ i, i < 0x1000000 → p i ≠ 0) → la_strnlen p 0x1000000 = 0x1000000) ∧
    (∀ k, k < 0x1000000 → p k = 0 → (∀ i, i < k → p i ≠ 0) →
      la_strnlen p 0x1000000 = k) := by
  obtain ⟨a1, a2, _⟩ := append_spec as p 0 (la_strnlen p 0x1000000) hbl
  have hle : la_strnlen p 0x1000000 ≤ 0x1000000 := by
    have := la_strnlen_from_le p 0x1000000 0
    unfold la_strnlen
    omega
  refine ⟨rfl, rfl, ?_, hle, ?_, ?_⟩
  · show (archive_string_append as p 0 (la_strnlen p 0x1000000)).1.data = _
    rw [a2]
    simp only [Nat.zero_add]
  · intro hnz
    rcases Nat.eq_or_lt_of_le hle with h | h
    · exact h
    · have h2 : la_strnlen_from p 0x1000000 0 < 0 + 0x1000000 := by
        unfold la_strnlen at h
        omega
      exact absurd (la_strnlen_from_stop p 0x1000000 0 h2) (hnz _ h)
  · intro k hk hk0 hkfirst
    rcases Nat.lt_trichotomy (la_strnlen p 0x1000000) k with h | h | h
    · have h2 : la_strnlen_from p 0x1000000 0 < 0 + 0x1000000 := by
        unfold la_strnlen at h hle
        omega
      exact absurd (la_strnlen_from_stop p 0x1000000 0 h2) (hkfirst _ h)
    · exact h
    · exact absurd hk0 (la_strnlen_from_ne p 0x1000000 0 k (Nat.zero_le k) h)

/-- Witness for C10: a two-element NUL-terminated source is appended in
full, which the theorem's first-zero characterization pins at length 2. -/
theorem archive_strcat_fixed_bound_witness :
    archive_strcat archive_string_init (memOf [5, 6]) =
      archive_strncat archive_string_init (memOf [5, 6]) 0x1000000 ∧
    la_strnlen (memOf [5, 6]) 0x1000000 = 2 := by
  have h := archive_strcat_fixed_bound archive_string_init (memOf [5, 6])
    (by decide)
  exact ⟨h.1, h.2.2.2.2.2 2 (by norm_num) (by decide)
    (fun i hi => by interval_cases i <;> decide)⟩

/-- On a NUL-free byte list, `invalid_mbs` reports success exactly when
every byte is a valid (ASCII) character of the modelled locale. -/
theorem invalid_mbs_go_zero (l : List Nat) (hz : ∀ b ∈ l, b ≠ 0) :
    (invalid_mbs.go l = 0 ↔ ∀ b ∈ l, b < 0x80) := by
  induction l with
  | nil => simp [invalid_mbs.go]
  | cons b rest ih =>
    have hb : b ≠ 0 := hz b (by simp)
    rw [invalid_mbs.go, if_neg hb]
    by_cases h : b < 0x80
    · rw [if_pos h]
      rw [ih (fun x hx => hz x (by simp [hx]))]
      simp [h]
    · rw [if_neg h]
      constructor
      · intro hc
        exact absurd hc (by decide)
      · intro hc
        exact absurd (hc b (by simp)) h

/-- The substitution loop returns 0 or -1. -/
theorem best_effort_loop_ret_cases (l : List Nat) (tu : Bool) :
    (best_effort_loop l tu).2 = 0 ∨ (best_effort_loop l tu).2 = -1 := by
  induction l with
  | nil => simp [best_effort_loop]
  | cons b rest ih =>
    rw [best_effort_loop]
    by_cases h0 : b = 0
    · rw [if_pos h0]
      simp
    · rw [if_neg h0]
      by_cases h : 0x80 ≤ b
      · rw [if_pos h]
        simp
      · rw [if_neg h]
        simpa using ih

/-- On a NUL-free byte list, the substitution loop reports a clean copy
exactly when no byte has the sign bit set. -/
theorem best_effort_loop_ret (l : List Nat) (tu : Bool)
    (hz : ∀ b ∈ l, b ≠ 0) :
    ((best_effort_loop l tu).2 = 0 ↔ ∀ b ∈ l, b < 0x80) := by
  induction l with
  | nil => simp [best_effort_loop]
  | cons b rest ih =>
    have hb : b ≠ 0 := hz b (by simp)
    rw [best_effort_loop, if_neg hb]
    by_cases h : 0x80 ≤ b
    · rw [if_pos h]
      constructor
      · intro hc
        simp at hc
      · intro hc
        exact absurd (hc b (by simp)) (by omega)
    · rw [if_neg h]
      rw [show ((b :: (best_effort_loop rest tu).1,
        (best_effort_loop rest tu).2) : List Nat × Int).2 =
        (best_effort_loop rest tu).2 from rfl]
      rw [ih (fun x hx => hz x (by simp [hx]))]
      constructor
      · intro hc x hx
        rcases List.mem_cons.1 hx with rfl | hx
        · omega
        · exact hc x hx
      · intro hc x hx
        exact hc x (by simp [hx])

/-- Through the `from UTF-8, best effort` conversion object, the
conversion result is that of the substitution loop (the destination only
receives the output). -/
theorem strcpy_from_utf8_ret (uc0 : Nat) (dest : ArchiveString)
    (p : List Nat) (hz : ∀ b ∈ p, b ≠ 0) (hlen : p.length ≤ 0x1000000) :
    (archive_strcpy_in_locale uc0 dest p (some sconv_from_utf8)).2 =
      (best_effort_loop p false).2 := by
  have hscan : la_strnlen (memOf p) 0x1000000 = p.length :=
    la_strnlen_memOf p 0x1000000 hz hlen
  simp only [archive_strcpy_in_locale, archive_strncpy_in_locale,
    archive_strncat_in_locale, best_effort_strncat_in_locale,
    sconv_from_utf8, SCONV_FROM_CHARSET, SCONV_BEST_EFFORT,
    SCONV_NORMALIZATION_C, SCONV_UTF8_LIBARCHIVE_2,
    SCONV_COPY_UTF8_TO_UTF8, SCONV_TO_UTF8, hscan, List.take_length]
  simp [show (134 : Nat) &&& 32 = 0 from by decide,
    show (134 : Nat) &&& 64 = 0 from by decide,
    show (134 : Nat) &&& 512 = 0 from by decide]

/-- C3 (amended): with a `same`-encoding best-effort conversion object,
the input is appended byte-identically whether or not it is valid — no
`?`/U+FFFD substitution happens on this path — and the call reports
success exactly when the bytes decode cleanly under the declared
encoding (modelled locale: when every byte is ASCII). -/
theorem best_effort_same_verbatim (uc0 : Nat) (as : ArchiveString)
    (p : List Nat) (hz : ∀ b ∈ p, b ≠ 0)
    (hbl : as.buffer_length < 2 ^ 63) :
    (best_effort_strncat_in_locale uc0 as p p.length
      (some sconv_same)).1.data = as.data ++ p ∧
    ((best_effort_strncat_in_locale uc0 as p p.length
      (some sconv_same)).2 = 0 ↔ ∀ b ∈ p, b < 0x80) := by
  have hscan : la_strnlen (memOf p) p.length = p.length :=
    la_strnlen_memOf p p.length hz (le_refl _)
  obtain ⟨a1, a2, _⟩ := append_spec as (memOf p) 0 p.length hbl
  have hdata : (archive_string_append as (memOf p) 0 p.length).1.data =
      as.data ++ p := by
    rw [a2, range_map_memOf]
  have hmbs : invalid_mbs p p.length = invalid_mbs.go p := by
    unfold invalid_mbs
    rw [List.take_length]
  simp only [best_effort_strncat_in_locale, sconv_same, SCONV_TO_CHARSET,
    SCONV_BEST_EFFORT, SCONV_UTF8_LIBARCHIVE_2, SCONV_COPY_UTF8_TO_UTF8,
    hscan]
  simp only [show (1 + 4 : Nat) &&& 32 = 0 from by decide,
    show (1 + 4 : Nat) &&& 64 = 0 from by decide, ne_eq,
    not_true_eq_false, not_false_eq_true, if_true, if_false,
    ite_self, ite_true, ite_false]
  rw [hmbs]
  exact ⟨hdata, invalid_mbs_go_zero p hz⟩

/-- Witness for C3's amended theorem: `ISO-8859-1` to itself on the valid
ASCII input `"AB"` is a byte-identical copy reporting success; the
counterexample theorem covers the invalid input. -/
theorem best_effort_same_verbatim_witness :
    (best_effort_strncat_in_locale 0 archive_string_init [0x41, 0x42] 2
      (some sconv_same)).1.data = [0x41, 0x42] ∧
    (best_effort_strncat_in_locale 0 archive_string_init [0x41, 0x42] 2
      (some sconv_same)).2 = 0 := by
  have h := best_effort_same_verbatim 0 archive_string_init [0x41, 0x42]
    (by decide) (by decide)
  exact ⟨by simpa using h.1, h.2.mpr (by decide)⟩

/-- C5: when `archive_mstring_update_utf8` stores a UTF-8 form whose
conversion to the locale encoding fails (modelled locale: some byte has
the sign bit set), the call returns failure, yet the UTF-8 bit stays in
the validity mask and a subsequent `archive_mstring_get_utf8` hands back
the original UTF-8 bytes intact. -/
theorem mstring_update_utf8_keeps_utf8 (uc0 : Nat) (aes : ArchiveMstring)
    (utf8 : List Nat) (hz : ∀ b ∈ utf8, b ≠ 0)
    (hlen : utf8.length ≤ 0x1000000)
    (hbl : aes.aes_utf8.buffer_length < 2 ^ 63)
    (hfail : ∃ b ∈ utf8, 0x80 ≤ b) :
    (archive_mstring_update_utf8 uc0 aes utf8).2 = -1 ∧
    (archive_mstring_update_utf8 uc0 aes utf8).1.aes_set &&&
      AES_SET_UTF8 ≠ 0 ∧
    archive_mstring_get_utf8 uc0
        (archive_mstring_update_utf8 uc0 aes utf8).1 =
      ((archive_mstring_update_utf8 uc0 aes utf8).1, some utf8, 0) := by
  have hscan : la_strnlen (memOf utf8) 0x1000000 = utf8.length :=
    la_strnlen_memOf utf8 0x1000000 hz hlen
  obtain ⟨p1, p2, p3⟩ := append_spec { aes.aes_utf8 with data := [] }
    (memOf utf8) 0 (la_strnlen (memOf utf8) 0x1000000) hbl
  have hdata : (archive_strcat { aes.aes_utf8 with data := [] }
      (memOf utf8)).1.data = utf8 := by
    show (archive_string_append { aes.aes_utf8 with data := [] }
      (memOf utf8) 0 (la_strnlen (memOf utf8) 0x1000000)).1.data = utf8
    rw [p2, hscan, range_map_memOf]
    rfl
  have halloc : (archive_strcat { aes.aes_utf8 with data := [] }
      (memOf utf8)).1.alloc = true := p3
  have hneg : ∀ dest : ArchiveString,
      (archive_strcpy_in_locale uc0 dest utf8
        (some sconv_from_utf8)).2 ≠ 0 := by
    intro dest h
    rw [strcpy_from_utf8_ret uc0 dest utf8 hz hlen] at h
    obtain ⟨b, hb1, hb2⟩ := hfail
    have := (best_effort_loop_ret utf8 false hz).1 h b hb1
    omega
  have hupd : archive_mstring_update_utf8 uc0 aes utf8 =
      (⟨(archive_strcpy_in_locale uc0 (archive_string_empty aes.aes_mbs)
          utf8 (some sconv_from_utf8)).1,
        (archive_strcat { aes.aes_utf8 with data := [] } (memOf utf8)).1,
        archive_string_empty aes.aes_wcs, aes.aes_mbs_in_locale,
        AES_SET_UTF8⟩, -1) := by
    simp only [archive_mstring_update_utf8]
    split
    · rfl
    · rename_i h
      exact absurd (by simpa using h) (hneg _)
  have hptr : strPtr (archive_strcat { aes.aes_utf8 with data := [] }
      (memOf utf8)).1 = some utf8 := by
    unfold strPtr
    rw [halloc, if_pos rfl, hdata]
  refine ⟨?_, ?_, ?_⟩
  · rw [hupd]
  · rw [hupd]
    show AES_SET_UTF8 &&& AES_SET_UTF8 ≠ 0
    decide
  · rw [hupd]
    simp only [archive_mstring_get_utf8]
    rw [if_pos (show AES_SET_UTF8 &&& AES_SET_UTF8 ≠ 0 from by decide)]
    rw [hptr]

/-- Witness for C5: the two UTF-8 bytes of U+00C9 (É) fail the locale
conversion, yet survive in the UTF-8 form. -/
theorem mstring_update_utf8_keeps_utf8_witness :
    (archive_mstring_update_utf8 0 archive_mstring_init [0xC3, 0x89]).2 =
      -1 ∧
    archive_mstring_get_utf8 0
        (archive_mstring_update_utf8 0 archive_mstring_init
          [0xC3, 0x89]).1 =
      ((archive_mstring_update_utf8 0 archive_mstring_init
        [0xC3, 0x89]).1, some [0xC3, 0x89], 0) := by
  have h := mstring_update_utf8_keeps_utf8 0 archive_mstring_init
    [0xC3, 0x89] (by decide) (by decide) (by decide)
    ⟨0xC3, by decide, by decide⟩
  exact ⟨h.1, h.2.2⟩

/-- The continuation scan never returns below `min i limit`. -/
theorem contScan_go_ge (s : List Nat) (limit : Nat) :
    ∀ fuel i, min i limit ≤ contScan.go s limit fuel i := by
  intro fuel
  induction fuel with
  | zero => intro i; simp [contScan.go]
  | succ k ih =>
    intro i
    rw [contScan.go]
    split
    · have := ih (i + 1)
      omega
    · omega

/-- The continuation scan never passes `limit` when it has at most
`limit - i` steps of fuel. -/
theorem contScan_go_le (s : List Nat) (limit : Nat) :
    ∀ fuel i, i + fuel ≤ limit → contScan.go s limit fuel i ≤ limit := by
  intro fuel
  induction fuel with
  | zero => intro i _; simp [contScan.go]
  | succ k ih =>
    intro i h
    rw [contScan.go]
    split
    · exact ih (i + 1) (by omega)
    · omega

/-- Bounds for `contScan s limit 1` when `1 ≤ limit`. -/
theorem contScan_bounds (s : List Nat) (limit : Nat) (h : 1 ≤ limit) :
    1 ≤ contScan s limit 1 ∧ contScan s limit 1 ≤ limit := by
  unfold contScan
  constructor
  · have := contScan_go_ge s limit (limit - 1) 1
    omega
  · exact contScan_go_le s limit (limit - 1) 1 (by omega)

/-- The lead byte's table entry is one of 0..4. -/
theorem utf8_count_cases (ch : Nat) :
    utf8_count ch = 0 ∨ utf8_count ch = 1 ∨ utf8_count ch = 2 ∨
    utf8_count ch = 3 ∨ utf8_count ch = 4 := by
  unfold utf8_count
  split_ifs <;> simp

/-- Branch sweep for the lenient decoder on a nonempty read with nonzero
lead byte: the result is either a positive count, or a negative count in
`[-n, -1]` with the replacement character stored. -/
theorem lenient_result_shape (s : List Nat) (n : Nat) (hn0 : 0 < n)
    (hch : s.getD 0 0 ≠ 0) :
    0 < (utf8_to_unicode_lenient s n).1 ∨
    ((utf8_to_unicode_lenient s n).1 < 0 ∧
     (utf8_to_unicode_lenient s n).2 = some 0xFFFD ∧
     1 ≤ -(utf8_to_unicode_lenient s n).1 ∧
     -(utf8_to_unicode_lenient s n).1 ≤ (n : Int)) := by
  unfold utf8_to_unicode_lenient
  rw [if_neg (by omega), if_neg hch]
  by_cases htr : n < utf8_count (s.getD 0 0)
  · rw [if_pos htr]
    obtain ⟨hb1, hb2⟩ := contScan_bounds s n (by omega)
    right
    refine ⟨by omega, rfl, by omega, by omega⟩
  · rw [if_neg htr]
    rcases utf8_count_cases (s.getD 0 0) with h | h | h | h | h <;> rw [h]
    · -- default arm: invalid lead byte
      rw [if_neg (by decide), if_neg (by decide), if_neg (by decide),
        if_neg (by decide)]
      right
      have hone : 1 ≤ utf8_default_cnt (s.getD 0 0) := by
        unfold utf8_default_cnt
        split_ifs <;> omega
      obtain ⟨hb1, hb2⟩ := contScan_bounds s
        (if n < utf8_default_cnt (s.getD 0 0) then n
         else utf8_default_cnt (s.getD 0 0)) (by split_ifs <;> omega)
      refine ⟨by omega, rfl, by omega, ?_⟩
      have : (if n < utf8_default_cnt (s.getD 0 0) then n
          else utf8_default_cnt (s.getD 0 0)) ≤ n := by
        split_ifs <;> omega
      omega
    · rw [if_pos rfl]
      left
      omega
    · rw [if_neg (by decide), if_pos rfl]
      by_cases hc1 : isCont (s.getD 1 0)
      · rw [if_neg (by simpa using hc1)]
        left
        omega
      · rw [if_pos (by simpa using hc1)]
        right
        refine ⟨by omega, rfl, by omega, by omega⟩
    · rw [if_neg (by decide), if_neg (by decide), if_pos rfl]
      by_cases hc1 : isCont (s.getD 1 0)
      · rw [if_neg (by simpa using hc1)]
        by_cases hc2 : isCont (s.getD 2 0)
        · rw [if_neg (by simpa using hc2)]
          split_ifs with h1 h2
          · right
            refine ⟨by omega, rfl, by omega, by omega⟩
          · right
            refine ⟨by omega, rfl, by omega, by omega⟩
          · left
            omega
        · rw [if_pos (by simpa using hc2)]
          right
          refine ⟨by omega, rfl, by omega, by omega⟩
      · rw [if_pos (by simpa using hc1)]
        right
        refine ⟨by omega, rfl, by omega, by omega⟩
    · rw [if_neg (by decide), if_neg (by decide), if_neg (by decide),
        if_pos rfl]
      by_cases hc1 : isCont (s.getD 1 0)
      · rw [if_neg (by simpa using hc1)]
        by_cases hc2 : isCont (s.getD 2 0)
        · rw [if_neg (by simpa using hc2)]
          by_cases hc3 : isCont (s.getD 3 0)
          · rw [if_neg (by simpa using hc3)]
            split_ifs with h1 h2
            · right
              refine ⟨by omega, rfl, by omega, by omega⟩
            · right
              refine ⟨by omega, rfl, by omega, by omega⟩
            · left
              omega
          · rw [if_pos (by simpa using hc3)]
            right
            refine ⟨by omega, rfl, by omega, by omega⟩
        · rw [if_pos (by simpa using hc2)]
          right
          refine ⟨by omega, rfl, by omega, by omega⟩
      · rw [if_pos (by simpa using hc1)]
        right
        refine ⟨by omega, rfl, by omega, by omega⟩

/-- C2: the lenient decoder returns 0 exactly for empty input or a zero
lead byte (consuming nothing); on any violation — invalid lead byte,
truncated sequence, bad continuation byte, overlong 3- or 4-byte
encoding, or a decoded value above U+10FFFF — it returns a negative
count whose magnitude (the bytes consumed) lies in `[1, n]`, storing
U+FFFD as the output code point. -/
theorem utf8_decode_error_contract (s : List Nat) (n : Nat) :
    ((utf8_to_unicode_lenient s n).1 = 0 ↔ n = 0 ∨ s.getD 0 0 = 0) ∧
    ((utf8_to_unicode_lenient s n).1 < 0 →
      (utf8_to_unicode_lenient s n).2 = some 0xFFFD ∧
      1 ≤ -(utf8_to_unicode_lenient s n).1 ∧
      -(utf8_to_unicode_lenient s n).1 ≤ (n : Int)) ∧
    (0 < n → s.getD 0 0 ≠ 0 → utf8_count (s.getD 0 0) = 0 →
      (utf8_to_unicode_lenient s n).1 < 0) ∧
    (0 < n → n < utf8_count (s.getD 0 0) →
      (utf8_to_unicode_lenient s n).1 < 0) ∧
    (∀ i, 0 < i → i < utf8_count (s.getD 0 0) → i < n →
      isCont (s.getD i 0) = false → (utf8_to_unicode_lenient s n).1 < 0) ∧
    (utf8_count (s.getD 0 0) = 3 → 3 ≤ n →
      isCont (s.getD 1 0) = true → isCont (s.getD 2 0) = true →
      (s.getD 0 0 % 16) * 4096 + (s.getD 1 0 % 64) * 64 +
        s.getD 2 0 % 64 < 0x800 →
      (utf8_to_unicode_lenient s n).1 < 0) ∧
    (utf8_count (s.getD 0 0) = 4 → 4 ≤ n →
      isCont (s.getD 1 0) = true → isCont (s.getD 2 0) = true →
      isCont (s.getD 3 0) = true →
      ((s.getD 0 0 % 8) * 262144 + (s.getD 1 0 % 64) * 4096 +
        (s.getD 2 0 % 64) * 64 + s.getD 3 0 % 64 < 0x10000 ∨
       0x10FFFF < (s.getD 0 0 % 8) * 262144 + (s.getD 1 0 % 64) * 4096 +
        (s.getD 2 0 % 64) * 64 + s.getD 3 0 % 64) →
      (utf8_to_unicode_lenient s n).1 < 0) := by
  have htrunc : ∀ m : Nat, 0 < m → m < utf8_count (s.getD 0 0) →
      (utf8_to_unicode_lenient s m).1 < 0 := by
    intro m hm0 hmtr
    have hch : s.getD 0 0 ≠ 0 := by
      intro hc
      rw [hc, show utf8_count 0 = 1 from rfl] at hmtr
      omega
    unfold utf8_to_unicode_lenient
    rw [if_neg (by omega), if_neg hch, if_pos hmtr]
    obtain ⟨hb1, _⟩ := contScan_bounds s m (by omega)
    simp only []
    omega
  refine ⟨?_, ?_, ?_, htrunc n, ?_, ?_, ?_⟩
  · constructor
    · intro h0
      by_contra hc
      push_neg at hc
      rcases lenient_result_shape s n (by omega) hc.2 with h | h <;> omega
    · rintro (rfl | hz)
      · rw [utf8_to_unicode_lenient, if_pos rfl]
      · unfold utf8_to_unicode_lenient
        by_cases h0 : n = 0
        · rw [if_pos h0]
        · rw [if_neg h0, if_pos hz]
  · intro hneg
    have h0 : n ≠ 0 := by
      intro h
      rw [utf8_to_unicode_lenient, if_pos h] at hneg
      exact absurd hneg (by decide)
    have hz : s.getD 0 0 ≠ 0 := by
      intro h
      rw [utf8_to_unicode_lenient, if_neg h0, if_pos h] at hneg
      exact absurd hneg (by decide)
    rcases lenient_result_shape s n (by omega) hz with h | h
    · omega
    · exact ⟨h.2.1, h.2.2.1, h.2.2.2⟩
  · intro hn0 hch hcnt
    unfold utf8_to_unicode_lenient
    rw [if_neg (by omega), if_neg hch, if_neg (by omega), hcnt]
    rw [if_neg (by decide), if_neg (by decide), if_neg (by decide),
      if_neg (by decide)]
    obtain ⟨hb1, _⟩ := contScan_bounds s
      (if n < utf8_default_cnt (s.getD 0 0) then n
       else utf8_default_cnt (s.getD 0 0))
      (by
        have : 1 ≤ utf8_default_cnt (s.getD 0 0) := by
          unfold utf8_default_cnt
          split_ifs <;> omega
        split_ifs <;> omega)
    simp only []
    omega
  · intro i hi0 hicnt hin hbad
    have hch : s.getD 0 0 ≠ 0 := by
      intro hc
      rw [hc, show utf8_count 0 = 1 from rfl] at hicnt
      omega
    by_cases htr : n < utf8_count (s.getD 0 0)
    · exact htrunc n (by omega) htr
    · rcases utf8_count_cases (s.getD 0 0) with h | h | h | h | h
    -- cnt = 0 and cnt = 1 contradict 0 < i < cnt
      · omega
      · omega
      · -- cnt = 2: the only continuation index is 1
        have hi1 : i = 1 := by omega
        subst hi1
        unfold utf8_to_unicode_lenient
        rw [if_neg (by omega), if_neg hch, if_neg htr, h,
          if_neg (by decide), if_pos rfl, if_pos (by rw [hbad]; decide)]
        decide
      · unfold utf8_to_unicode_lenient
        rw [if_neg (by omega), if_neg hch, if_neg htr, h,
          if_neg (by decide), if_neg (by decide), if_pos rfl]
        by_cases hc1 : isCont (s.getD 1 0)
        · have hi2 : i = 2 := by
            rcases (by omega : i = 1 ∨ i = 2) with rfl | rfl
            · rw [hbad] at hc1
              exact absurd hc1 (by decide)
            · rfl
          subst hi2
          rw [if_neg (by simpa using hc1), if_pos (by rw [hbad]; decide)]
          decide
        · rw [if_pos (by simpa using hc1)]
          decide
      · unfold utf8_to_unicode_lenient
        rw [if_neg (by omega), if_neg hch, if_neg htr, h,
          if_neg (by decide), if_neg (by decide), if_neg (by decide),
          if_pos rfl]
        by_cases hc1 : isCont (s.getD 1 0)
        · by_cases hc2 : isCont (s.getD 2 0)
          · have hi3 : i = 3 := by
              rcases (by omega : i = 1 ∨ i = 2 ∨ i = 3) with rfl | rfl | rfl
              · rw [hbad] at hc1
                exact absurd hc1 (by decide)
              · rw [hbad] at hc2
                exact absurd hc2 (by decide)
              · rfl
            subst hi3
            rw [if_neg (by simpa using hc1), if_neg (by simpa using hc2),
              if_pos (by rw [hbad]; decide)]
            decide
          · rw [if_neg (by simpa using hc1), if_pos (by simpa using hc2)]
            decide
        · rw [if_pos (by simpa using hc1)]
          decide
  · intro hcnt hn3 hc1 hc2 hover
    have hch : s.getD 0 0 ≠ 0 := by
      intro hc
      rw [hc, show utf8_count 0 = 1 from rfl] at hcnt
      omega
    unfold utf8_to_unicode_lenient
    rw [if_neg (by omega), if_neg hch, if_neg (by omega), hcnt,
      if_neg (by decide), if_neg (by decide), if_pos rfl,
      if_neg (by rw [hc1]; decide), if_neg (by rw [hc2]; decide),
      if_pos hover]
    decide
  · intro hcnt hn4 hc1 hc2 hc3 hover
    have hch : s.getD 0 0 ≠ 0 := by
      intro hc
      rw [hc, show utf8_count 0 = 1 from rfl] at hcnt
      omega
    unfold utf8_to_unicode_lenient
    rw [if_neg (by omega), if_neg hch, if_neg (by omega), hcnt,
      if_neg (by decide), if_neg (by decide), if_neg (by decide),
      if_pos rfl, if_neg (by rw [hc1]; decide),
      if_neg (by rw [hc2]; decide), if_neg (by rw [hc3]; decide)]
    rcases hover with hlo | hhi
    · rw [if_pos hlo]
      decide
    · rw [if_neg (by omega), if_pos (by omega)]
      decide

/-- Witness for C2 at concrete inputs: the lone continuation byte 0x80 is
an invalid lead and decodes to -1 with U+FFFD, and a NUL lead returns
0. -/
theorem utf8_decode_error_contract_witness :
    (utf8_to_unicode_lenient [0x80] 1).1 < 0 ∧
    (utf8_to_unicode_lenient [0x80] 1).2 = some 0xFFFD ∧
    (utf8_to_unicode_lenient [0x00, 0x41] 2).1 = 0 := by
  have h1 := utf8_decode_error_contract [0x80] 1
  have h2 := utf8_decode_error_contract [0x00, 0x41] 2
  have hneg := h1.2.2.1 (by decide) (by decide) (by decide)
  exact ⟨hneg, (h1.2.1 hneg).1, h2.1.mpr (Or.inr (by decide))⟩

/-- The lead-byte classes behind each positive table entry. -/
theorem utf8_count_ranges (ch : Nat) :
    (utf8_count ch = 1 → ch < 0x80) ∧
    (utf8_count ch = 2 → 0xC2 ≤ ch ∧ ch < 0xE0) ∧
    (utf8_count ch = 3 → 0xE0 ≤ ch ∧ ch < 0xF0) ∧
    (utf8_count ch = 4 → 0xF0 ≤ ch ∧ ch < 0xF5) := by
  refine ⟨?_, ?_, ?_, ?_⟩ <;> intro h <;>
    (unfold utf8_count at h; split_ifs at h <;> omega)

/-- A clean (positive) decode of the lenient decoder re-encodes to
exactly the bytes it consumed. -/
theorem lenient_pos_encode (s : List Nat) (n : Nat) (hn : n ≤ s.length)
    (hb : ∀ b ∈ s, b < 256) (c : Int) (wc : Nat)
    (h : utf8_to_unicode_lenient s n = (c, some wc)) (hc : 0 < c) :
    unicode_to_utf8 wc = s.take c.toNat ∧ 0 < c.toNat ∧ c.toNat ≤ n := by
  have hn0 : n ≠ 0 := by
    intro h0
    rw [utf8_to_unicode_lenient, if_pos h0] at h
    injection h with h1 h2
    exact Option.noConfusion h2
  have hch : s.getD 0 0 ≠ 0 := by
    intro h0
    rw [utf8_to_unicode_lenient, if_neg hn0, if_pos h0] at h
    injection h with h1 h2
    exact Option.noConfusion h2
  rw [utf8_to_unicode_lenient, if_neg hn0, if_neg hch] at h
  by_cases htr : n < utf8_count (s.getD 0 0)
  · rw [if_pos htr] at h
    exfalso
    obtain ⟨hb1, _⟩ := contScan_bounds s n (by omega)
    injection h with h1 _
    omega
  · rw [if_neg htr] at h
    rcases utf8_count_cases (s.getD 0 0) with hcnt | hcnt | hcnt | hcnt |
      hcnt <;> rw [hcnt] at h
    · -- invalid lead: the default arm is negative, contradiction
      rw [if_neg (by decide), if_neg (by decide), if_neg (by decide),
        if_neg (by decide)] at h
      exfalso
      obtain ⟨hb1, _⟩ := contScan_bounds s
        (if n < utf8_default_cnt (s.getD 0 0) then n
         else utf8_default_cnt (s.getD 0 0))
        (by
          have : 1 ≤ utf8_default_cnt (s.getD 0 0) := by
            unfold utf8_default_cnt
            split_ifs <;> omega
          split_ifs <;> omega)
      injection h with h1 _
      omega
    · -- one-byte sequence
      rw [if_pos rfl] at h
      injection h with h1 h2
      injection h2 with h2
      have hr := (utf8_count_ranges (s.getD 0 0)).1 hcnt
      have hlen : 1 ≤ s.length := by omega
      rcases s with _ | ⟨b0, t⟩
      · simp at hlen
      · have h0 : (b0 :: t).getD 0 0 = b0 := rfl
        rw [h0] at hr h2
        refine ⟨?_, by omega, by omega⟩
        rw [← h1]
        show unicode_to_utf8 wc = (b0 :: t).take 1
        rw [unicode_to_utf8, if_pos (by omega)]
        have : wc = b0 := by omega
        rw [this]
        rfl
    · -- two-byte sequence
      rw [if_neg (by decide), if_pos rfl] at h
      by_cases hc1 : isCont (s.getD 1 0)
      · rw [if_neg (by rw [hc1]; decide)] at h
        injection h with h1 h2
        injection h2 with h2
        have hr := ((utf8_count_ranges (s.getD 0 0)).2.1) hcnt
        have hlen : 2 ≤ s.length := by omega
        rcases s with _ | ⟨b0, _ | ⟨b1, t⟩⟩ <;> simp at hlen
        have e0 : ((b0 :: b1 :: t).getD 0 0) = b0 := rfl
        have e1 : ((b0 :: b1 :: t).getD 1 0) = b1 := rfl
        rw [e0] at hr h2
        rw [e1] at h2
        have hb1 : b1 < 256 := hb b1 (by simp)
        have hcont : b1 / 64 % 4 = 2 := by
          rw [e1] at hc1
          simpa [isCont] using hc1
        refine ⟨?_, by omega, by omega⟩
        rw [← h1]
        show unicode_to_utf8 wc = (b0 :: b1 :: t).take 2
        rw [unicode_to_utf8, if_neg (by omega), if_pos (by omega)]
        have g1 : 0xC0 + wc / 64 % 32 = b0 := by omega
        have g2 : 0x80 + wc % 64 = b1 := by omega
        rw [g1, g2]
        rfl
      · rw [if_pos (by rw [show isCont (s.getD 1 0) = false by
            simpa using hc1]; decide)] at h
        injection h with h1 _
        omega
    · -- three-byte sequence
      rw [if_neg (by decide), if_neg (by decide), if_pos rfl] at h
      by_cases hc1 : isCont (s.getD 1 0)
      · rw [if_neg (by rw [hc1]; decide)] at h
        by_cases hc2 : isCont (s.getD 2 0)
        · rw [if_neg (by rw [hc2]; decide)] at h
          by_cases hlo : (s.getD 0 0 % 16) * 4096 +
              (s.getD 1 0 % 64) * 64 + s.getD 2 0 % 64 < 0x800
          · rw [if_pos hlo] at h
            injection h with h1 _
            omega
          · rw [if_neg hlo, if_neg (by
              have hb2 : s.getD 2 0 % 64 < 64 := Nat.mod_lt _ (by omega)
              have hb1 : s.getD 1 0 % 64 < 64 := Nat.mod_lt _ (by omega)
              have hb0 : s.getD 0 0 % 16 < 16 := Nat.mod_lt _ (by omega)
              omega)] at h
            injection h with h1 h2
            injection h2 with h2
            have hr := ((utf8_count_ranges (s.getD 0 0)).2.2.1) hcnt
            have hlen : 3 ≤ s.length := by omega
            rcases s with _ | ⟨b0, _ | ⟨b1, _ | ⟨b2, t⟩⟩⟩ <;> simp at hlen
            have e0 : ((b0 :: b1 :: b2 :: t).getD 0 0) = b0 := rfl
            have e1 : ((b0 :: b1 :: b2 :: t).getD 1 0) = b1 := rfl
            have e2 : ((b0 :: b1 :: b2 :: t).getD 2 0) = b2 := rfl
            rw [e0] at hr h2 hlo
            rw [e1] at h2 hlo
            rw [e2] at h2 hlo
            have hb1v : b1 < 256 := hb b1 (by simp)
            have hb2v : b2 < 256 := hb b2 (by simp)
            have hcont1 : b1 / 64 % 4 = 2 := by
              rw [e1] at hc1
              simpa [isCont] using hc1
            have hcont2 : b2 / 64 % 4 = 2 := by
              rw [e2] at hc2
              simpa [isCont] using hc2
            refine ⟨?_, by omega, by omega⟩
            rw [← h1]
            show unicode_to_utf8 wc = (b0 :: b1 :: b2 :: t).take 3
            rw [unicode_to_utf8, if_neg (by omega), if_neg (by omega),
              if_pos (by omega)]
            have g1 : 0xE0 + wc / 4096 % 16 = b0 := by omega
            have g2 : 0x80 + wc / 64 % 64 = b1 := by omega
            have g3 : 0x80 + wc % 64 = b2 := by omega
            rw [g1, g2, g3]
            rfl
        · rw [if_pos (by rw [show isCont (s.getD 2 0) = false by
              simpa using hc2]; decide)] at h
          injection h with h1 _
          omega
      · rw [if_pos (by rw [show isCont (s.getD 1 0) = false by
            simpa using hc1]; decide)] at h
        injection h with h1 _
        omega
    · -- four-byte sequence
      rw [if_neg (by decide), if_neg (by decide), if_neg (by decide),
        if_pos rfl] at h
      by_cases hc1 : isCont (s.getD 1 0)
      · rw [if_neg (by rw [hc1]; decide)] at h
        by_cases hc2 : isCont (s.getD 2 0)
        · rw [if_neg (by rw [hc2]; decide)] at h
          by_cases hc3 : isCont (s.getD 3 0)
          · rw [if_neg (by rw [hc3]; decide)] at h
            by_cases hlo : (s.getD 0 0 % 8) * 262144 +
                (s.getD 1 0 % 64) * 4096 + (s.getD 2 0 % 64) * 64 +
                s.getD 3 0 % 64 < 0x10000
            · rw [if_pos hlo] at h
              injection h with h1 _
              omega
            · rw [if_neg hlo] at h
              by_cases hhi : (s.getD 0 0 % 8) * 262144 +
                  (s.getD 1 0 % 64) * 4096 + (s.getD 2 0 % 64) * 64 +
                  s.getD 3 0 % 64 > 0x10FFFF
              · rw [if_pos hhi] at h
                injection h with h1 _
                omega
              · rw [if_neg hhi] at h
                injection h with h1 h2
                injection h2 with h2
                have hr := ((utf8_count_ranges (s.getD 0 0)).2.2.2) hcnt
                have hlen : 4 ≤ s.length := by omega
                rcases s with _ | ⟨b0, _ | ⟨b1, _ | ⟨b2, _ | ⟨b3, t⟩⟩⟩⟩ <;>
                  simp at hlen
                have e0 : ((b0 :: b1 :: b2 :: b3 :: t).getD 0 0) = b0 := rfl
                have e1 : ((b0 :: b1 :: b2 :: b3 :: t).getD 1 0) = b1 := rfl
                have e2 : ((b0 :: b1 :: b2 :: b3 :: t).getD 2 0) = b2 := rfl
                have e3 : ((b0 :: b1 :: b2 :: b3 :: t).getD 3 0) = b3 := rfl
                rw [e0] at hr h2 hlo hhi
                rw [e1] at h2 hlo hhi
                rw [e2] at h2 hlo hhi
                rw [e3] at h2 hlo hhi
                have hb1v : b1 < 256 := hb b1 (by simp)
                have hb2v : b2 < 256 := hb b2 (by simp)
                have hb3v : b3 < 256 := hb b3 (by simp)
                have hcont1 : b1 / 64 % 4 = 2 := by
                  rw [e1] at hc1
                  simpa [isCont] using hc1
                have hcont2 : b2 / 64 % 4 = 2 := by
                  rw [e2] at hc2
                  simpa [isCont] using hc2
                have hcont3 : b3 / 64 % 4 = 2 := by
                  rw [e3] at hc3
                  simpa [isCont] using hc3
                refine ⟨?_, by omega, by omega⟩
                rw [← h1]
                show unicode_to_utf8 wc = (b0 :: b1 :: b2 :: b3 :: t).take 4
                rw [unicode_to_utf8, if_neg (by omega), if_neg (by omega),
                  if_neg (by omega), if_pos (by omega)]
                have g1 : 0xF0 + wc / 262144 % 8 = b0 := by omega
                have g2 : 0x80 + wc / 4096 % 64 = b1 := by omega
                have g3 : 0x80 + wc / 64 % 64 = b2 := by omega
                have g4 : 0x80 + wc % 64 = b3 := by omega
                rw [g1, g2, g3, g4]
                rfl
          · rw [if_pos (by rw [show isCont (s.getD 3 0) = false by
                simpa using hc3]; decide)] at h
            injection h with h1 _
            omega
        · rw [if_pos (by rw [show isCont (s.getD 2 0) = false by
              simpa using hc2]; decide)] at h
          injection h with h1 _
          omega
      · rw [if_pos (by rw [show isCont (s.getD 1 0) = false by
            simpa using hc1]; decide)] at h
        injection h with h1 _
        omega

/-- Iterate the lenient decoder over a whole input: the list of decoded
code points when every step is a clean (positive) decode consuming the
prefix, `none` as soon as a step is not clean.  `fuel` bounds the steps
(each clean step consumes at least one byte, so `s.length` suffices). -/
def utf8DecodeList (fuel : Nat) (s : List Nat) : Option (List Nat) :=
  match fuel with
  | 0 => if s = [] then some [] else none
  | fuel + 1 =>
    if s = [] then some []
    else
      match utf8_to_unicode_lenient s s.length with
      | (c, some wc) =>
        if 0 < c then
          match utf8DecodeList fuel (s.drop c.toNat) with
          | some cps => some (wc :: cps)
          | none => none
        else none
      | (_, none) => none

/-- Decode a whole byte string with the lenient decoder, clean steps
only. -/
def utf8_decode_all (s : List Nat) : Option (List Nat) :=
  utf8DecodeList s.length s

/-- Re-encoding every code point of a clean decode reproduces the
input, for any sufficient fuel. -/
theorem utf8DecodeList_encode :
    ∀ fuel s cps, (∀ b ∈ s, b < 256) →
      utf8DecodeList fuel s = some cps →
      (cps.map unicode_to_utf8).flatten = s := by
  intro fuel
  induction fuel with
  | zero =>
    intro s cps _ h
    rw [utf8DecodeList] at h
    by_cases hs : s = []
    · rw [if_pos hs] at h
      injection h with h
      rw [← h, hs]
      rfl
    · rw [if_neg hs] at h
      exact Option.noConfusion h
  | succ k ih =>
    intro s cps hb h
    rw [utf8DecodeList] at h
    by_cases hs : s = []
    · rw [if_pos hs] at h
      injection h with h
      rw [← h, hs]
      rfl
    · rw [if_neg hs] at h
      rcases hr : utf8_to_unicode_lenient s s.length with ⟨c, w⟩
      rcases w with _ | wc
      · simp only [hr] at h
        exact Option.noConfusion h
      · simp only [hr] at h
        by_cases hc : 0 < c
        · rw [if_pos hc] at h
          rcases hrec : utf8DecodeList k (s.drop c.toNat) with _ | cps2
          · simp only [hrec] at h
            exact Option.noConfusion h
          · simp only [hrec] at h
            injection h with h
            obtain ⟨henc, hpos, hle⟩ := lenient_pos_encode s s.length
              (le_refl _) hb c wc hr hc
            have hrest : ((cps2.map unicode_to_utf8)).flatten =
                s.drop c.toNat :=
              ih (s.drop c.toNat) cps2
                (fun b hbm => hb b (List.mem_of_mem_drop hbm)) hrec
            rw [← h]
            simp only [List.map_cons, List.flatten_cons]
            rw [henc, hrest, List.take_append_drop]
        · rw [if_neg hc] at h
          exact Option.noConfusion h

/-- C8: for valid UTF-8 input — input the lenient decoder accepts without
replacement — decoding one code point and re-encoding it reproduces
exactly the consumed bytes, and iterating over the whole input
round-trips to the identical byte sequence. -/
theorem utf8_decode_encode_roundtrip (s : List Nat)
    (hb : ∀ b ∈ s, b < 256) :
    (∀ n c wc, n ≤ s.length →
      utf8_to_unicode_lenient s n = (c, some wc) → 0 < c →
      unicode_to_utf8 wc = s.take c.toNat) ∧
    (∀ cps, utf8_decode_all s = some cps →
      (cps.map unicode_to_utf8).flatten = s) := by
  constructor
  · intro n c wc hn h hc
    exact (lenient_pos_encode s n hn hb c wc h hc).1
  · intro cps h
    exact utf8DecodeList_encode s.length s cps hb h

/-- Witness for C8: `"A"` followed by the two UTF-8 bytes of U+00E9
decodes cleanly to U+0041, U+00E9 and re-encodes to the same three
bytes. -/
theorem utf8_decode_encode_roundtrip_witness :
    utf8_decode_all [0x41, 0xC3, 0xA9] = some [0x41, 0xE9] ∧
    (([0x41, 0xE9].map unicode_to_utf8)).flatten = [0x41, 0xC3, 0xA9] := by
  refine ⟨by decide, ?_⟩
  exact (utf8_decode_encode_roundtrip [0x41, 0xC3, 0xA9] (by decide)).2
    [0x41, 0xE9] (by decide)
